import Mathlib

/-!
# xmap: a hashmap with caller-supplied eq() and hash()

Shallow embedding of `config.go` and `xmap.go`, for a 64-bit platform.

Modelling conventions.
* A finite `float64` value is the rational number it denotes. Every float64 operation of
  the code (the conversion `float64(n)` of an int, `*`, `/`) is the exact rational
  operation followed by `float64`, the IEEE 754 rounding to the nearest binary64 value,
  ties to even; `math.Ceil` is exact. A float64 constant such as `0.8` is the binary64
  value nearest to the decimal (`f64`). Infinities and NaN are not values of the model:
  an operation that overflows has no result.
* The conversion `int(x)` of a float64 truncates toward zero; it has a result only when
  the truncated value is an int64 (outside that range Go leaves the result to the
  implementation).
* The sizes `size`, `maxSize`, `minSize` are integers; the code only compares them,
  adds 1 or -1 to `size`, and assigns results of `int(x)`.
* A `uint32` hash is a natural number; the conversion `uint32(len(m.buckets))` is the
  bucket count modulo 2^32.
* A bucket chain (entries linked through `next`, ended by `nil`) is the list of its
  entries in chain order; the bucket slice is a list of chains; the `nil` slice is `[]`.
* `make([]*entry, n)` panics when `n` is negative or when `n` pointers of 8 bytes exceed
  the largest allocation, 2^48 bytes. Running out of memory is not modelled.
* A call has the result `none` when the code panics (integer division by zero,
  `makeslice: len out of range`) or when a float64 operation or conversion in it has no
  result in the sense above.
-/

set_option maxRecDepth 100000

namespace Xmap

/-! ## float64 -/

/-- The rational 2^e, for an integer exponent. -/
def pow2 (e : Int) : ℚ :=
  if 0 ≤ e then ((2 ^ e.toNat : Nat) : ℚ) else 1 / ((2 ^ (-e).toNat : Nat) : ℚ)

/-- The binary logarithm rounded down, by repeated halving (at most `fuel` times). -/
def log2Aux : Nat → Nat → Nat
  | 0, _ => 0
  | fuel + 1, n => if n < 2 then 0 else log2Aux fuel (n / 2) + 1

/-- The binary logarithm of a positive natural number, rounded down. -/
def log2 (n : Nat) : Nat := log2Aux n n

/-- The binary exponent of a non-zero rational: the integer e with 2^e <= |x| < 2^(e+1). -/
def exponent (x : ℚ) : Int :=
  let a : Int := (log2 x.num.natAbs : Int) - (log2 x.den : Int)
  if pow2 a ≤ (if 0 ≤ x then x else -x) then a else a - 1

/-- The integer nearest to x, the even one of the two when x lies halfway. -/
def roundHalfEven (x : ℚ) : Int :=
  let f : Int := ⌊x⌋
  if x - f < 1 / 2 then f
  else if 1 / 2 < x - f then f + 1
  else if f % 2 = 0 then f else f + 1

/-- The binary64 value nearest to x (ties to even): x rounded to a multiple of
2^(e - 52), where e is the binary exponent of x and at least -1022 (subnormal range);
no result when the rounded value is not finite (2^1024 or beyond). -/
def float64 (x : ℚ) : Option ℚ :=
  if x = 0 then some 0
  else
    let e : Int := max (exponent x) (-1022)
    let r : ℚ := (roundHalfEven (x / pow2 (e - 52)) : ℚ) * pow2 (e - 52)
    if -pow2 1024 < r ∧ r < pow2 1024 then some r else none

/-- The float64 constant written as the decimal x. -/
def f64 (x : ℚ) : ℚ := (float64 x).getD 0

/-- The function math.Ceil on a finite float64. -/
def Ceil (x : ℚ) : ℚ := ((⌈x⌉ : Int) : ℚ)

/-- The conversion `int(x)` of a finite float64: truncation toward zero, with a result
only inside the int64 range. -/
def toInt (x : ℚ) : Option Int :=
  let t : Int := if 0 ≤ x then ⌊x⌋ else ⌈x⌉
  if -9223372036854775808 ≤ t ∧ t < 9223372036854775808 then some t else none

/-- The expression `int(math.Ceil(float64(n) / d))`. -/
def ceilDiv (n : Int) (d : ℚ) : Option Int :=
  match float64 (n : ℚ) with
  | none => none
  | some x =>
    if d = 0 then none
    else
      match float64 (x / d) with
      | none => none
      | some y => toInt (Ceil y)

/-- The expression `int(math.Ceil(float64(n) * f))`. -/
def ceilMul (n : Int) (f : ℚ) : Option Int :=
  match float64 (n : ℚ) with
  | none => none
  | some x =>
    match float64 (x * f) with
    | none => none
    | some y => toInt (Ceil y)

/-- The expression `int(float64(n) * f)`. -/
def truncMul (n : Int) (f : ℚ) : Option Int :=
  match float64 (n : ℚ) with
  | none => none
  | some x =>
    match float64 (x * f) with
    | none => none
    | some y => toInt y

/-- The expression `int(float64(n) / d)`. -/
def truncDiv (n : Int) (d : ℚ) : Option Int :=
  match float64 (n : ℚ) with
  | none => none
  | some x =>
    if d = 0 then none
    else
      match float64 (x / d) with
      | none => none
      | some y => toInt y

/-! ## config.go -/

/-- Config holds properties that may be changed. -/
structure Config where
  InitialCap : Int
  GrowLoadLimit : ℚ
  ShrinkLoadLimit : ℚ
  ChangeFactor : ℚ
deriving DecidableEq

def DefaultInitialCap : Int := 8

def DefaultGrowLoadLimit : ℚ := f64 (8 / 10)

def DefaultShrinkLoadLimit : ℚ := f64 (25 / 100)

def DefaultChangeFactor : ℚ := 2

/-- The method setDefaults sets default values for fields that are the zero values of
their types. -/
def Config.setDefaults (cfg : Config) : Config :=
  let cfg := if cfg.InitialCap = 0 then { cfg with InitialCap := DefaultInitialCap } else cfg
  let cfg := if cfg.GrowLoadLimit = 0 then { cfg with GrowLoadLimit := DefaultGrowLoadLimit } else cfg
  let cfg := if cfg.ShrinkLoadLimit = 0 then { cfg with ShrinkLoadLimit := DefaultShrinkLoadLimit } else cfg
  let cfg := if cfg.ChangeFactor = 0 then { cfg with ChangeFactor := DefaultChangeFactor } else cfg
  cfg

def defaultConfig : Config := Config.setDefaults ⟨0, 0, 0, 0⟩

/-! ## xmap.go -/

/-- A chain node: key, value and the cached hash of the key. The `next` link is the
position in the chain list. -/
structure entry (K V : Type) where
  key : K
  value : V
  hash : Nat

/-- Map is a hashmap implementation that uses custom eq() and hash() functions. -/
structure Map (K V : Type) where
  eq : K → K → Bool
  hash : K → Nat
  cfg : Config
  maxSize : Int
  minSize : Int
  size : Int
  buckets : List (List (entry K V))

variable {K V : Type}

def NewConfig (eq : K → K → Bool) (hash : K → Nat) (cfg : Config) : Map K V :=
  { eq := eq, hash := hash, cfg := cfg.setDefaults,
    maxSize := 0, minSize := 0, size := 0, buckets := [] }

def New (eq : K → K → Bool) (hash : K → Nat) : Map K V :=
  NewConfig eq hash defaultConfig

/-- The largest allocation of the Go runtime on a 64-bit platform, in bytes: 2^48. -/
def maxAlloc : Int := 281474976710656

namespace Map

/-- Len returns the map's length (the number of entries it holds). -/
def Len (m : Map K V) : Int := m.size

/-- Cap returns the map's current capacity. -/
def Cap (m : Map K V) : Int := m.maxSize

/-- The index `hash % uint32(len(m.buckets))`: the bucket count is converted to uint32
(its value modulo 2^32), and the division panics when the converted count is 0. -/
def hashToBucketIdx (m : Map K V) (hash : Nat) : Option Nat :=
  if m.buckets.length % 4294967296 = 0 then none
  else some (hash % (m.buckets.length % 4294967296))

/-- The chain scan of GetOK: the value of the first entry whose cached hash and key
match, or the zero value and false. -/
def getLoop [Inhabited V] (eq : K → K → Bool) (key : K) (hash : Nat) :
    List (entry K V) → V × Bool
  | [] => (default, false)
  | e :: next =>
    if hash = e.hash ∧ eq key e.key = true then (e.value, true)
    else getLoop eq key hash next

/-- GetOK returns the value associated with key and whether the key was found. -/
def GetOK [Inhabited V] (m : Map K V) (key : K) : Option (V × Bool) :=
  if m.size = 0 then some (default, false)
  else
    let hash := m.hash key
    match m.hashToBucketIdx hash with
    | none => none
    | some idx =>
      match m.buckets[idx]? with
      | none => none
      | some e => some (getLoop m.eq key hash e)

/-- Get returns the value associated with key, the zero value if not found. -/
def Get [Inhabited V] (m : Map K V) (key : K) : Option V :=
  (m.GetOK key).map Prod.fst

/-- One step of the inner loop of rehash: the entry is appended to the chain of the
bucket its cached hash selects in the new bucket slice. -/
def rehashEntry (m : Map K V) (e : entry K V) : Option (Map K V) :=
  match m.hashToBucketIdx e.hash with
  | none => none
  | some idx =>
    match m.buckets[idx]? with
    | none => none
    | some last => some { m with buckets := m.buckets.set idx (last ++ [e]) }

/-- The inner loop of rehash over one old chain. -/
def rehashChain (m : Map K V) : List (entry K V) → Option (Map K V)
  | [] => some m
  | e :: next =>
    match rehashEntry m e with
    | none => none
    | some m1 => rehashChain m1 next

/-- The outer loop of rehash over the old bucket slice. -/
def rehashBuckets (m : Map K V) : List (List (entry K V)) → Option (Map K V)
  | [] => some m
  | e :: rest =>
    match rehashChain m e with
    | none => none
    | some m1 => rehashBuckets m1 rest

/-- The method rehash performs a rehashing into `numBuckets` fresh buckets; `make`
panics on a negative count and on a count of more than maxAlloc / 8 pointers. -/
def rehash (m : Map K V) (numBuckets : Int) : Option (Map K V) :=
  if numBuckets < 0 ∨ maxAlloc < 8 * numBuckets then none
  else
    rehashBuckets { m with buckets := List.replicate numBuckets.toNat [] } m.buckets

/-- SetCap sets the map's capacity. -/
def SetCap (m : Map K V) (capacity : Int) : Option (Map K V) :=
  let capacity := if capacity < m.size then m.size else capacity
  if capacity = m.maxSize then some m
  else
    match ceilDiv capacity m.cfg.GrowLoadLimit with
    | none => none
    | some numBuckets =>
      match ceilMul numBuckets m.cfg.ShrinkLoadLimit with
      | none => none
      | some minSize => rehash { m with maxSize := capacity, minSize := minSize } numBuckets

/-- The method changeSize changes the current size and checks if it is in the allowed
[minSize..maxSize] range; performs rehashing to grow / shrink as needed. -/
def changeSize (m : Map K V) (delta : Int) : Option (Map K V) :=
  let m := { m with size := m.size + delta }
  if delta > 0 then
    if m.size > m.maxSize then
      match truncMul m.maxSize m.cfg.ChangeFactor with
      | none => none
      | some newSize => m.SetCap newSize
    else some m
  else
    if m.size < m.minSize ∧ m.maxSize > m.cfg.InitialCap then
      match truncDiv m.maxSize m.cfg.ChangeFactor with
      | none => none
      | some newSize =>
        m.SetCap (if newSize < m.cfg.InitialCap then m.cfg.InitialCap else newSize)
    else some m

/-- The chain walk of Set: the new chain, and whether a new entry was inserted (true)
or an existing one updated (false). -/
def setLoop (eq : K → K → Bool) (key : K) (value : V) (hash : Nat) :
    List (entry K V) → List (entry K V) × Bool
  | [] => ([⟨key, value, hash⟩], true)
  | e :: next =>
    if hash = e.hash ∧ eq key e.key = true then ({ e with value := value } :: next, false)
    else
      let r := setLoop eq key value hash next
      (e :: r.1, r.2)

/-- Set sets the given value for the given key; if the key is already in the map,
updates the value. -/
def Set (m : Map K V) (key : K) (value : V) : Option (Map K V) :=
  match (if m.size = 0 then m.SetCap m.cfg.InitialCap else some m) with
  | none => none
  | some m =>
    let hash := m.hash key
    match m.hashToBucketIdx hash with
    | none => none
    | some idx =>
      match m.buckets[idx]? with
      | none => none
      | some e =>
        let r := setLoop m.eq key value hash e
        let m := { m with buckets := m.buckets.set idx r.1 }
        if r.2 then m.changeSize 1 else some m

/-- The chain walk of Delete: the chain without the first matching entry, or `none`
when no entry matches. -/
def deleteLoop (eq : K → K → Bool) (key : K) (hash : Nat) :
    List (entry K V) → Option (List (entry K V))
  | [] => none
  | e :: next =>
    if hash = e.hash ∧ eq key e.key = true then some next
    else (deleteLoop eq key hash next).map (fun r => e :: r)

/-- Delete removes the key and its value from the map. -/
def Delete (m : Map K V) (key : K) : Option (Map K V) :=
  if m.size = 0 then some m
  else
    let hash := m.hash key
    match m.hashToBucketIdx hash with
    | none => none
    | some idx =>
      match m.buckets[idx]? with
      | none => none
      | some e =>
        match deleteLoop m.eq key hash e with
        | none => some m
        | some r => changeSize { m with buckets := m.buckets.set idx r } (-1)

/-- Clone returns a clone of this map: every chain is copied entry by entry, in order. -/
def Clone (m : Map K V) : Map K V :=
  { m with buckets := m.buckets.map (fun chain => chain.map (fun e => ⟨e.key, e.value, e.hash⟩)) }

/-- The inner loop of Range over one chain. The visitor `f` is a closure: it is given
its own state `s` and returns its answer and its next state; it has no access to the
map. The result is the record of the calls made (key, value, answer), the visitor's
state after them, and whether Range goes on (false once a call answered false). -/
def rangeChain {σ : Type} (f : σ → K → V → Bool × σ) (s : σ) :
    List (entry K V) → List (K × V × Bool) × σ × Bool
  | [] => ([], s, true)
  | e :: next =>
    let r := f s e.key e.value
    if r.1 = false then ([(e.key, e.value, false)], r.2, false)
    else
      let t := rangeChain f r.2 next
      ((e.key, e.value, true) :: t.1, t.2.1, t.2.2)

/-- The outer loop of Range over the bucket slice. -/
def rangeBuckets {σ : Type} (f : σ → K → V → Bool × σ) (s : σ) :
    List (List (entry K V)) → List (K × V × Bool) × σ
  | [] => ([], s)
  | e :: rest =>
    let r := rangeChain f s e
    if r.2.2 = false then (r.1, r.2.1)
    else
      let t := rangeBuckets f r.2.1 rest
      (r.1 ++ t.1, t.2)

/-- Range ranges over the entries of the map, calling f for each key-value pair; if f
returns false, Range returns without further calls to f. The result is the record of
the calls made, in order, and the visitor's final state. -/
def Range {σ : Type} (m : Map K V) (f : σ → K → V → Bool × σ) (s : σ) :
    List (K × V × Bool) × σ :=
  rangeBuckets f s m.buckets

end Map

/-! ## xmap_test.go -/

def intHash (i : Int) : Nat := (i % 4294967296).toNat

def intEq (i j : Int) : Bool := decide (i = j)

/-- The configuration of TestCapacity. -/
def testCfg : Config := ⟨10, f64 (8 / 10), f64 (25 / 100), 2⟩

/-- An operation of a test run. -/
inductive Op (K V : Type) where
  | set (key : K) (value : V)
  | delete (key : K)

/-- Applies one operation. -/
def Op.apply (m : Map K V) : Op K V → Option (Map K V)
  | Op.set key value => m.Set key value
  | Op.delete key => m.Delete key

/-- Applies the operations in turn and records `(Len(), Cap())` after each one; stops
with `none` at a panic. -/
def trace (m : Map K V) : List (Op K V) → Option (List (Int × Int))
  | [] => some []
  | op :: rest =>
    match op.apply m with
    | none => none
    | some m1 =>
      match trace m1 rest with
      | none => none
      | some t => some ((m1.Len, m1.Cap) :: t)

/-- Applies the operations in turn and returns the final map; `none` at a panic. -/
def run (m : Map K V) : List (Op K V) → Option (Map K V)
  | [] => some m
  | op :: rest =>
    match op.apply m with
    | none => none
    | some m1 => run m1 rest

/-- The Set operations for keys 1, 2, ..., 29 (value = key) of TestCapacity. -/
def insOps : List (Op Int Int) :=
  (List.range 29).map (fun i => Op.set ((i : Int) + 1) ((i : Int) + 1))

/-- The Delete operations for keys 29, 28, ..., 1 of TestCapacity. -/
def delOps : List (Op Int Int) :=
  (List.range 29).map (fun i => Op.delete (29 - (i : Int)))

/-- The capacity TestCapacity expects after `Set(i, i)`. -/
def capAfterSet (i : Int) : Int := if 21 ≤ i then 40 else if 11 ≤ i then 20 else 10

/-- The capacity TestCapacity expects after `Delete(i)`. -/
def capAfterDelete (i : Int) : Int := if 13 < i then 40 else if 7 < i then 20 else 10

/-- The whole record TestCapacity asserts: `(i, capAfterSet i)` after `Set(i, i)` for
i = 1..29, then `(i - 1, capAfterDelete i)` after `Delete(i)` for i = 29..1. -/
def expectedTrace : List (Int × Int) :=
  (List.range 29).map (fun i => ((i : Int) + 1, capAfterSet ((i : Int) + 1))) ++
  (List.range 29).map (fun i => (29 - (i : Int) - 1, capAfterDelete (29 - (i : Int))))

/-- The configuration {1, 0.6, 0.59, 2}: it satisfies InitialCap >= 1,
0 < ShrinkLoadLimit < GrowLoadLimit <= 1 and ChangeFactor > 1, and its shrink limit is
close to its grow limit. -/
def tightCfg : Config := ⟨1, f64 (6 / 10), f64 (59 / 100), 2⟩

/-- The configuration {4294967296, 1.0, 0.25, 2}: InitialCap >= 1 and
0 < GrowLoadLimit <= 1, and the initial capacity asks for 2^32 buckets. -/
def wideCfg : Config := ⟨4294967296, 1, f64 (25 / 100), 2⟩

/-- The configuration {1, 1.0, 0.25, 2}: one bucket per unit of capacity. -/
def unitCfg : Config := ⟨1, 1, f64 (25 / 100), 2⟩

/-- The configuration {1, 0.8, 0.25, 1.5}, whose change factor is small. -/
def slowCfg : Config := ⟨1, f64 (8 / 10), f64 (25 / 100), f64 (15 / 10)⟩

/-- A run with keys that share a bucket (1, 11 and 21 are equal modulo the 10 buckets
of the default configuration), an update of a stored key, and a key deleted and set
again. -/
def mixedOps : List (Op Int Int) :=
  [Op.set 1 10, Op.set 11 110, Op.set 1 12, Op.set 21 210, Op.delete 11, Op.set 11 111]

/-! ## Specification vocabulary -/

/-- The constraints on a configuration: InitialCap >= 1, 0 < GrowLoadLimit <= 1,
ChangeFactor > 1. -/
structure Config.Valid (cfg : Config) : Prop where
  initialCap_pos : 1 ≤ cfg.InitialCap
  grow_pos : 0 < cfg.GrowLoadLimit
  grow_le_one : cfg.GrowLoadLimit ≤ 1
  change_gt_one : 1 < cfg.ChangeFactor

/-- The capacity fits: the bucket count and the shrink floor SetCap computes for it have
results, and the bucket count is at least 1 and below 2^32 (so `make` accepts it and its
conversion to uint32 is not 0). -/
def Config.Fits (cfg : Config) (capacity : Int) : Prop :=
  ∃ numBuckets minSize : Int, ceilDiv capacity cfg.GrowLoadLimit = some numBuckets ∧
    ceilMul numBuckets cfg.ShrinkLoadLimit = some minSize ∧
    1 ≤ numBuckets ∧ numBuckets < 4294967296

/-- The contract on the caller's functions: eq is an equivalence relation and hash
returns equal values on eq-equal keys. -/
structure Lawful (eq : K → K → Bool) (hash : K → Nat) : Prop where
  refl : ∀ a, eq a a = true
  symm : ∀ a b, eq a b = true → eq b a = true
  trans : ∀ a b c, eq a b = true → eq b c = true → eq a c = true
  hash_eq : ∀ a b, eq a b = true → hash a = hash b

/-- The maps reachable from `NewConfig eq hash cfg` by Set, Delete, SetCap and Clone
(each step being a call that returns). -/
inductive Reachable (eq : K → K → Bool) (hash : K → Nat) (cfg : Config) : Map K V → Prop
  | new : Reachable eq hash cfg (NewConfig eq hash cfg)
  | set {m m1 : Map K V} (key : K) (value : V) :
      Reachable eq hash cfg m → m.Set key value = some m1 → Reachable eq hash cfg m1
  | delete {m m1 : Map K V} (key : K) :
      Reachable eq hash cfg m → m.Delete key = some m1 → Reachable eq hash cfg m1
  | setCap {m m1 : Map K V} (capacity : Int) :
      Reachable eq hash cfg m → m.SetCap capacity = some m1 → Reachable eq hash cfg m1
  | clone {m : Map K V} : Reachable eq hash cfg m → Reachable eq hash cfg m.Clone

namespace Map

/-- All entries of the map, in bucket order and chain order. -/
def entries (m : Map K V) : List (entry K V) := m.buckets.flatten

/-- Every entry of the chain of bucket `i` has a cached hash that selects bucket `i`:
the bucket count converted to uint32 is not 0, and the cached hash modulo it is `i`. -/
def Placed (buckets : List (List (entry K V))) : Prop :=
  ∀ (i : Nat) (chain : List (entry K V)), buckets[i]? = some chain →
    ∀ e ∈ chain, buckets.length % 4294967296 ≠ 0 ∧
      e.hash % (buckets.length % 4294967296) = i

/-- The shape of the bucket slice: every entry sits in the bucket its cached hash
selects, every cached hash is the hash of the key, and the slice is one `make` accepts. -/
structure Shape (m : Map K V) : Prop where
  placed : Placed m.buckets
  cached : ∀ e ∈ m.entries, e.hash = m.hash e.key
  alloc : 8 * (m.buckets.length : Int) ≤ maxAlloc

/-- The map `m1` is `m` with the entries `added` linked in: same functions,
configuration, sizes and bucket count. -/
structure Moved (m m1 : Map K V) (added : List (entry K V)) : Prop where
  eq_eq : m1.eq = m.eq
  hash_eq : m1.hash = m.hash
  cfg_eq : m1.cfg = m.cfg
  maxSize_eq : m1.maxSize = m.maxSize
  minSize_eq : m1.minSize = m.minSize
  size_eq : m1.size = m.size
  length_eq : m1.buckets.length = m.buckets.length
  perm : m1.entries.Perm (m.entries ++ added)
  placed : Placed m.buckets → Placed m1.buckets

/-- The structural invariant of a map. -/
structure WF (m : Map K V) : Prop where
  shape : m.Shape
  size_eq : m.size = (m.entries.length : Int)
  size_le : m.size ≤ m.maxSize

/-- No two stored entries have eq-equal keys. -/
def NoDup (m : Map K V) : Prop :=
  m.entries.Pairwise (fun a b => m.eq a.key b.key = false)

/-- The result of a rehash into `numBuckets` buckets. -/
structure Rehashed (m m1 : Map K V) (numBuckets : Int) : Prop where
  eq_eq : m1.eq = m.eq
  hash_eq : m1.hash = m.hash
  cfg_eq : m1.cfg = m.cfg
  maxSize_eq : m1.maxSize = m.maxSize
  minSize_eq : m1.minSize = m.minSize
  size_eq : m1.size = m.size
  length_eq : (m1.buckets.length : Int) = numBuckets
  alloc : 8 * numBuckets ≤ maxAlloc
  perm : m1.entries.Perm m.entries
  placed : Placed m1.buckets

/-- The effect of `Set key value` on the entries: either one entry matching the key has
its value replaced, or no entry matches and a new entry is added. -/
def SetEffect (m m1 : Map K V) (key : K) (value : V) : Prop :=
  (∃ (e : entry K V) (rest : List (entry K V)),
      (m.hash key = e.hash ∧ m.eq key e.key = true) ∧ m.entries.Perm (e :: rest) ∧
      m1.entries.Perm ({ e with value := value } :: rest)) ∨
  ((∀ e ∈ m.entries, ¬ (m.hash key = e.hash ∧ m.eq key e.key = true)) ∧
      m1.entries.Perm (⟨key, value, m.hash key⟩ :: m.entries))

/-- The effect of `Delete key` on the entries: either one entry matching the key is
removed, or no entry matches and the map is unchanged. -/
def DeleteEffect (m m1 : Map K V) (key : K) : Prop :=
  (∃ e : entry K V, (m.hash key = e.hash ∧ m.eq key e.key = true) ∧
      m.entries.Perm (e :: m1.entries)) ∨
  ((∀ e ∈ m.entries, ¬ (m.hash key = e.hash ∧ m.eq key e.key = true)) ∧ m1 = m)

/-- The bucket count and the shrink floor are the ones SetCap derives from the capacity:
len(buckets) = int(math.Ceil(float64(maxSize) / GrowLoadLimit)) and
minSize = int(math.Ceil(float64(len(buckets)) * ShrinkLoadLimit)). -/
def Sized (m : Map K V) : Prop :=
  ceilDiv m.maxSize m.cfg.GrowLoadLimit = some (m.buckets.length : Int) ∧
  ceilMul (m.buckets.length : Int) m.cfg.ShrinkLoadLimit = some m.minSize

/-- The two maps have the same eq, hash and configuration. -/
def SameFns (m m1 : Map K V) : Prop :=
  m1.eq = m.eq ∧ m1.hash = m.hash ∧ m1.cfg = m.cfg

/-- Set finds room for a new key: on an empty map the initial capacity fits, and on a
full map the grown capacity max(int(Cap * ChangeFactor), Len + 1) has a result and
fits. -/
def SetFits (m : Map K V) : Prop :=
  (m.size = 0 → m.cfg.Fits m.cfg.InitialCap) ∧
  (m.size ≠ 0 → m.maxSize ≤ m.size →
    ∃ newSize : Int, truncMul m.maxSize m.cfg.ChangeFactor = some newSize ∧
      m.cfg.Fits (max newSize (m.size + 1)))

/-- Delete can shrink: when the removal of an entry takes the size below the shrink
floor (and the capacity is above the initial one), the shrunk capacity
max(int(Cap / ChangeFactor), InitialCap, Len - 1) has a result and is the current
capacity or fits. -/
def DeleteFits (m : Map K V) : Prop :=
  m.size - 1 < m.minSize → m.maxSize > m.cfg.InitialCap →
    ∃ newSize : Int, truncDiv m.maxSize m.cfg.ChangeFactor = some newSize ∧
      (max (max newSize m.cfg.InitialCap) (m.size - 1) = m.maxSize ∨
        m.cfg.Fits (max (max newSize m.cfg.InitialCap) (m.size - 1)))

end Map

/-! ## Lemmas on lists of chains -/

theorem flatten_set_perm {α : Type} (L : List (List α)) (idx : Nat) (c c1 : List α)
    (h : L[idx]? = some c) :
    ((L.set idx c1).flatten ++ c).Perm (L.flatten ++ c1) := by
  induction L generalizing idx with
  | nil => simp at h
  | cons x xs ih =>
    cases idx with
    | zero =>
      simp only [List.getElem?_cons_zero, Option.some.injEq] at h
      subst h
      simp only [List.set_cons_zero, List.flatten_cons]
      calc (c1 ++ xs.flatten ++ x).Perm (x ++ (c1 ++ xs.flatten)) := List.perm_append_comm
        _ |>.Perm (x ++ (xs.flatten ++ c1)) := List.Perm.append_left _ List.perm_append_comm
        _ = x ++ xs.flatten ++ c1 := by simp
    | succ n =>
      simp only [List.getElem?_cons_succ] at h
      simp only [List.set_cons_succ, List.flatten_cons, List.append_assoc]
      exact List.Perm.append_left _ (ih n h)

theorem flatten_set_append {α : Type} (L : List (List α)) (idx : Nat) (c : List α) (e : α)
    (h : L[idx]? = some c) :
    (L.set idx (c ++ [e])).flatten.Perm (L.flatten ++ [e]) := by
  have h1 := flatten_set_perm L idx c (c ++ [e]) h
  have h2 : (L.flatten ++ (c ++ [e])).Perm ((L.flatten ++ [e]) ++ c) := by
    rw [List.append_assoc]
    exact List.Perm.append_left _ List.perm_append_comm
  exact (List.perm_append_right_iff c).1 (h1.trans h2)

theorem getElem?_set_cases {α : Type} (L : List α) (idx i : Nat) (c chain : α)
    (h : (L.set idx c)[i]? = some chain) :
    (i = idx ∧ chain = c) ∨ (i ≠ idx ∧ L[i]? = some chain) := by
  rw [List.getElem?_set] at h
  by_cases hi : idx = i
  · subst hi
    simp only [if_true] at h
    split at h
    · left; exact ⟨rfl, (Option.some.inj h).symm⟩
    · simp at h
  · right
    simp only [hi, if_false] at h
    exact ⟨fun h1 => hi h1.symm, h⟩

theorem mem_flatten_of_getElem? {α : Type} (L : List (List α)) (i : Nat) (chain : List α)
    (h : L[i]? = some chain) (e : α) (he : e ∈ chain) : e ∈ L.flatten :=
  List.mem_flatten.2 ⟨chain, List.mem_iff_getElem?.2 ⟨i, h⟩, he⟩

theorem exists_getElem?_of_mem_flatten {α : Type} (L : List (List α)) (e : α)
    (he : e ∈ L.flatten) : ∃ (i : Nat) (chain : List α), L[i]? = some chain ∧ e ∈ chain := by
  obtain ⟨chain, hc, hm⟩ := List.mem_flatten.1 he
  obtain ⟨i, hi⟩ := List.mem_iff_getElem?.1 hc
  exact ⟨i, chain, hi, hm⟩

theorem flatten_set_others {α : Type} (L : List (List α)) (idx : Nat) (c : List α)
    (h : L[idx]? = some c) :
    ∃ others : List α, L.flatten.Perm (others ++ c) ∧
      ∀ c1, (L.set idx c1).flatten.Perm (others ++ c1) := by
  have hlt : idx < L.length := (List.getElem?_eq_some.1 h).1
  refine ⟨(L.set idx []).flatten, ?_, ?_⟩
  · have := flatten_set_perm L idx c [] h
    simpa using this.symm
  · intro c1
    have h1 : (L.set idx c1)[idx]? = some c1 := by
      rw [List.getElem?_set]; simp [hlt]
    have := flatten_set_perm (L.set idx c1) idx c1 [] h1
    simpa [List.set_set] using this.symm

/-! ## The bucket index -/

theorem Map.hashToBucketIdx_eq_some {m : Map K V} {h idx : Nat}
    (hi : m.hashToBucketIdx h = some idx) :
    m.buckets.length % 4294967296 ≠ 0 ∧ idx = h % (m.buckets.length % 4294967296) := by
  unfold Map.hashToBucketIdx at hi
  split at hi
  · simp at hi
  · rename_i hne
    exact ⟨hne, (Option.some.inj hi).symm⟩

theorem Map.hashToBucketIdx_of_ne {m : Map K V} (h : Nat)
    (hne : m.buckets.length % 4294967296 ≠ 0) :
    m.hashToBucketIdx h = some (h % (m.buckets.length % 4294967296)) := by
  unfold Map.hashToBucketIdx
  rw [if_neg hne]

theorem mod_mod_lt (h len : Nat) (hne : len % 4294967296 ≠ 0) :
    h % (len % 4294967296) < len :=
  lt_of_lt_of_le (Nat.mod_lt _ (Nat.pos_of_ne_zero hne)) (Nat.mod_le _ _)

/-- On a bucket slice whose converted count is not 0, every hash selects an existing
bucket. -/
theorem Map.bucket_of_ne (m : Map K V) (h : Nat) (hne : m.buckets.length % 4294967296 ≠ 0) :
    ∃ chain, m.hashToBucketIdx h = some (h % (m.buckets.length % 4294967296)) ∧
      m.buckets[h % (m.buckets.length % 4294967296)]? = some chain :=
  ⟨_, Map.hashToBucketIdx_of_ne h hne, List.getElem?_eq_getElem (mod_mod_lt h _ hne)⟩

/-! ## rehash -/

theorem Map.Moved.refl (m : Map K V) : Map.Moved m m [] :=
  ⟨rfl, rfl, rfl, rfl, rfl, rfl, rfl, by simp, fun h => h⟩

theorem Map.Moved.trans {m m1 m2 : Map K V} {a b : List (entry K V)}
    (h1 : Map.Moved m m1 a) (h2 : Map.Moved m1 m2 b) : Map.Moved m m2 (a ++ b) where
  eq_eq := h2.eq_eq.trans h1.eq_eq
  hash_eq := h2.hash_eq.trans h1.hash_eq
  cfg_eq := h2.cfg_eq.trans h1.cfg_eq
  maxSize_eq := h2.maxSize_eq.trans h1.maxSize_eq
  minSize_eq := h2.minSize_eq.trans h1.minSize_eq
  size_eq := h2.size_eq.trans h1.size_eq
  length_eq := h2.length_eq.trans h1.length_eq
  perm := by
    have := h2.perm.trans (List.Perm.append_right b h1.perm)
    simpa [List.append_assoc] using this
  placed := fun h => h2.placed (h1.placed h)

theorem Map.rehashEntry_spec {m m1 : Map K V} {e : entry K V}
    (h : m.rehashEntry e = some m1) : Map.Moved m m1 [e] := by
  unfold Map.rehashEntry at h
  split at h
  · simp at h
  · rename_i idx hidx
    obtain ⟨hne, hidx⟩ := Map.hashToBucketIdx_eq_some hidx
    split at h
    · simp at h
    · rename_i last hlast
      cases h
      refine ⟨rfl, rfl, rfl, rfl, rfl, rfl, by simp, ?_, ?_⟩
      · exact flatten_set_append _ _ _ _ hlast
      · intro hp i chain hi x hx
        simp only [List.length_set] at hi ⊢
        rcases getElem?_set_cases _ _ _ _ _ hi with ⟨h1, h2⟩ | ⟨_, h2⟩
        · subst h1 h2
          rcases List.mem_append.1 hx with hx | hx
          · exact hp _ _ hlast x hx
          · simp only [List.mem_singleton] at hx
            subst hx
            exact ⟨hne, hidx.symm⟩
        · exact hp i chain h2 x hx

theorem Map.rehashEntry_returns (m : Map K V) (e : entry K V)
    (hne : m.buckets.length % 4294967296 ≠ 0) : ∃ m1, m.rehashEntry e = some m1 := by
  obtain ⟨last, hidx, hlast⟩ := Map.bucket_of_ne m e.hash hne
  simp only [Map.rehashEntry, hidx, hlast]
  exact ⟨_, rfl⟩

theorem Map.rehashEntry_none (m : Map K V) (e : entry K V)
    (hz : m.buckets.length % 4294967296 = 0) : m.rehashEntry e = none := by
  simp [Map.rehashEntry, Map.hashToBucketIdx, hz]

theorem Map.rehashChain_spec (chain : List (entry K V)) {m m1 : Map K V}
    (h : m.rehashChain chain = some m1) : Map.Moved m m1 chain := by
  induction chain generalizing m with
  | nil =>
    cases h
    exact Map.Moved.refl _
  | cons e next ih =>
    unfold Map.rehashChain at h
    split at h
    · simp at h
    · rename_i m2 h2
      simpa using (Map.rehashEntry_spec h2).trans (ih h)

theorem Map.rehashChain_returns (chain : List (entry K V)) (m : Map K V)
    (hne : chain ≠ [] → m.buckets.length % 4294967296 ≠ 0) :
    ∃ m1, m.rehashChain chain = some m1 := by
  induction chain generalizing m with
  | nil => exact ⟨m, rfl⟩
  | cons e next ih =>
    obtain ⟨m1, h1⟩ := Map.rehashEntry_returns m e (hne (by simp))
    obtain ⟨m2, h2⟩ := ih m1 (fun _ => by
      rw [(Map.rehashEntry_spec h1).length_eq]; exact hne (by simp))
    exact ⟨m2, by simp [Map.rehashChain, h1, h2]⟩

theorem Map.rehashChain_none (chain : List (entry K V)) (m : Map K V) (hc : chain ≠ [])
    (hz : m.buckets.length % 4294967296 = 0) : m.rehashChain chain = none := by
  cases chain with
  | nil => exact absurd rfl hc
  | cons e next => simp [Map.rehashChain, Map.rehashEntry_none m e hz]

theorem Map.rehashBuckets_spec (old : List (List (entry K V))) {m m1 : Map K V}
    (h : m.rehashBuckets old = some m1) : Map.Moved m m1 old.flatten := by
  induction old generalizing m with
  | nil =>
    cases h
    simpa using Map.Moved.refl _
  | cons c rest ih =>
    unfold Map.rehashBuckets at h
    split at h
    · simp at h
    · rename_i m2 h2
      simpa using (Map.rehashChain_spec c h2).trans (ih h)

theorem Map.rehashBuckets_returns (old : List (List (entry K V))) (m : Map K V)
    (hne : old.flatten ≠ [] → m.buckets.length % 4294967296 ≠ 0) :
    ∃ m1, m.rehashBuckets old = some m1 := by
  induction old generalizing m with
  | nil => exact ⟨m, rfl⟩
  | cons c rest ih =>
    obtain ⟨m1, h1⟩ := Map.rehashChain_returns c m (fun hc => hne (by simp [hc]))
    obtain ⟨m2, h2⟩ := ih m1 (fun hr => by
      rw [(Map.rehashChain_spec c h1).length_eq]; exact hne (by simp [hr]))
    exact ⟨m2, by simp [Map.rehashBuckets, h1, h2]⟩

theorem Map.rehashBuckets_none (old : List (List (entry K V))) (m : Map K V)
    (hne : old.flatten ≠ []) (hz : m.buckets.length % 4294967296 = 0) :
    m.rehashBuckets old = none := by
  induction old generalizing m with
  | nil => simp at hne
  | cons c rest ih =>
    by_cases hc : c = []
    · subst hc
      have hr : rest.flatten ≠ [] := by simpa using hne
      simpa [Map.rehashBuckets, Map.rehashChain] using ih m hr hz
    · simp [Map.rehashBuckets, Map.rehashChain_none c m hc hz]

theorem placed_replicate (n : Nat) : Map.Placed (List.replicate n ([] : List (entry K V))) := by
  intro i chain hi e he
  rw [List.getElem?_replicate] at hi
  split at hi
  · cases hi
    simp at he
  · simp at hi

theorem Map.rehash_spec {m m1 : Map K V} {numBuckets : Int}
    (h : m.rehash numBuckets = some m1) : Map.Rehashed m m1 numBuckets := by
  unfold Map.rehash at h
  split at h
  · simp at h
  · rename_i hb
    rw [not_or, not_lt, not_lt] at hb
    have hmv := Map.rehashBuckets_spec _ h
    refine ⟨hmv.eq_eq, hmv.hash_eq, hmv.cfg_eq, hmv.maxSize_eq, hmv.minSize_eq, hmv.size_eq,
      ?_, hb.2, ?_, hmv.placed (placed_replicate _)⟩
    · rw [hmv.length_eq]
      simp only [List.length_replicate]
      omega
    · have := hmv.perm
      simpa [Map.entries] using this

theorem Map.rehash_returns (m : Map K V) (numBuckets : Int) (h0 : 0 ≤ numBuckets)
    (h1 : 8 * numBuckets ≤ maxAlloc)
    (h2 : m.entries ≠ [] → numBuckets % 4294967296 ≠ 0) :
    ∃ m1, m.rehash numBuckets = some m1 := by
  obtain ⟨m1, hm1⟩ := Map.rehashBuckets_returns m.buckets
    { m with buckets := List.replicate numBuckets.toNat [] } (fun hne => by
      have := h2 hne
      simp only [List.length_replicate]
      omega)
  refine ⟨m1, ?_⟩
  unfold Map.rehash
  rw [if_neg (by rw [not_or, not_lt, not_lt]; exact ⟨h0, h1⟩)]
  exact hm1

/-- A rehash of a map that holds an entry into a bucket count whose conversion to uint32
is 0 divides by zero. -/
theorem Map.rehash_none (m : Map K V) (numBuckets : Int) (hne : m.entries ≠ [])
    (hz : numBuckets % 4294967296 = 0) : m.rehash numBuckets = none := by
  unfold Map.rehash
  split
  · rfl
  · rename_i hb
    rw [not_or, not_lt, not_lt] at hb
    apply Map.rehashBuckets_none _ _ hne
    simp only [List.length_replicate]
    omega

/-! ## SetCap and changeSize -/

theorem max_of_ite (capacity size : Int) :
    (if capacity < size then size else capacity) = max capacity size := by
  split
  · rw [max_eq_right (by omega)]
  · rw [max_eq_left (by omega)]

theorem Map.Shape.with_size {m : Map K V} (h : m.Shape) (n : Int) :
    Map.Shape { m with size := n } :=
  ⟨h.placed, h.cached, h.alloc⟩

/-- What a returning SetCap leaves: a well-formed map with the same functions, size
and entries, the capacity max(capacity, size), and bucket count and shrink floor in
step with the capacity. -/
theorem Map.SetCap_spec {m m1 : Map K V} {capacity : Int} (h : m.SetCap capacity = some m1)
    (hs : m.Shape) (hsz : m.size = (m.entries.length : Int)) :
    m1.WF ∧ m.SameFns m1 ∧ m1.size = m.size ∧ m1.maxSize = max capacity m.size ∧
      m1.entries.Perm m.entries ∧ (m.Sized → m1.Sized) := by
  have hge : m.size ≤ max capacity m.size := le_max_right _ _
  unfold Map.SetCap at h
  simp only [max_of_ite] at h
  split at h
  · rename_i heq
    cases h
    exact ⟨⟨hs, hsz, by omega⟩, ⟨rfl, rfl, rfl⟩, rfl, heq.symm, List.Perm.refl _, fun h => h⟩
  · split at h
    · simp at h
    · rename_i numBuckets hdiv
      split at h
      · simp at h
      · rename_i minSize hmul
        have hr := Map.rehash_spec h
        have hperm : m1.entries.Perm m.entries := hr.perm
        have hlen : ((m1.buckets.length : Nat) : Int) = numBuckets := hr.length_eq
        refine ⟨⟨⟨hr.placed, ?_, ?_⟩, ?_, ?_⟩, ⟨hr.eq_eq, hr.hash_eq, hr.cfg_eq⟩,
          hr.size_eq, hr.maxSize_eq, hperm, fun _ => ⟨?_, ?_⟩⟩
        · intro e he
          rw [hr.hash_eq]
          exact hs.cached e (hperm.mem_iff.1 he)
        · rw [hlen]
          exact hr.alloc
        · rw [hr.size_eq, hperm.length_eq]; exact hsz
        · rw [hr.size_eq, hr.maxSize_eq]; exact hge
        · rw [hr.maxSize_eq, hr.cfg_eq, hlen]
          exact hdiv
        · rw [hr.cfg_eq, hr.minSize_eq, hlen]
          exact hmul

/-- SetCap returns when the capacity max(capacity, size) is the current one, or when
its bucket count and shrink floor have results, `make` accepts the bucket count, and
the count converted to uint32 is not 0 unless there is no entry to relocate. -/
theorem Map.SetCap_returns (m : Map K V) (capacity : Int)
    (h : max capacity m.size = m.maxSize ∨
      ∃ numBuckets minSize : Int,
        ceilDiv (max capacity m.size) m.cfg.GrowLoadLimit = some numBuckets ∧
        ceilMul numBuckets m.cfg.ShrinkLoadLimit = some minSize ∧
        0 ≤ numBuckets ∧ 8 * numBuckets ≤ maxAlloc ∧
        (m.entries ≠ [] → numBuckets % 4294967296 ≠ 0)) :
    ∃ m1, m.SetCap capacity = some m1 := by
  unfold Map.SetCap
  simp only [max_of_ite]
  by_cases heq : max capacity m.size = m.maxSize
  · exact ⟨m, by rw [if_pos heq]⟩
  · rcases h with h | ⟨numBuckets, minSize, hdiv, hmul, h0, h1, h2⟩
    · exact absurd h heq
    · rw [if_neg heq]
      simp only [hdiv, hmul]
      exact Map.rehash_returns _ numBuckets h0 h1 h2

theorem Map.SetCap_returns_of_fits (m : Map K V) (capacity : Int)
    (h : max capacity m.size = m.maxSize ∨ m.cfg.Fits (max capacity m.size)) :
    ∃ m1, m.SetCap capacity = some m1 := by
  apply Map.SetCap_returns
  rcases h with h | ⟨numBuckets, minSize, hdiv, hmul, h1, h2⟩
  · exact Or.inl h
  · exact Or.inr ⟨numBuckets, minSize, hdiv, hmul, by omega, by unfold maxAlloc; omega,
      fun _ => by omega⟩

/-- The bucket count after a SetCap that changes the capacity. -/
theorem Map.SetCap_length {m m1 : Map K V} {capacity numBuckets : Int}
    (h : m.SetCap capacity = some m1) (hne : max capacity m.size ≠ m.maxSize)
    (hdiv : ceilDiv (max capacity m.size) m.cfg.GrowLoadLimit = some numBuckets) :
    (m1.buckets.length : Int) = numBuckets := by
  unfold Map.SetCap at h
  simp only [max_of_ite, if_neg hne, hdiv] at h
  split at h
  · simp at h
  · exact (Map.rehash_spec h).length_eq

theorem Map.changeSize_inc_spec {m m1 : Map K V} (h : m.changeSize 1 = some m1)
    (hs : m.Shape) (hsz : m.size + 1 = (m.entries.length : Int)) :
    m1.WF ∧ m.SameFns m1 ∧ m1.size = m.size + 1 ∧ m1.entries.Perm m.entries ∧
      m.maxSize ≤ m1.maxSize ∧ (m.Sized → m1.Sized) := by
  unfold Map.changeSize at h
  simp only [gt_iff_lt, zero_lt_one, if_true] at h
  split at h
  · rename_i hgt
    split at h
    · simp at h
    · rename_i newSize _
      obtain ⟨hwf, hfn, hsize, hmax, hperm, hsd⟩ :=
        Map.SetCap_spec h (hs.with_size _) hsz
      refine ⟨hwf, hfn, hsize, hperm, ?_, hsd⟩
      rw [hmax]
      exact le_trans (le_of_lt hgt) (le_max_right _ _)
  · rename_i hgt
    cases h
    exact ⟨⟨hs.with_size _, hsz, not_lt.1 hgt⟩, ⟨rfl, rfl, rfl⟩, rfl, List.Perm.refl _,
      le_refl _, fun h => h⟩

theorem Map.changeSize_dec_spec {m m1 : Map K V} (h : m.changeSize (-1) = some m1)
    (hs : m.Shape) (hsz : m.size - 1 = (m.entries.length : Int)) (hle : m.size ≤ m.maxSize) :
    m1.WF ∧ m.SameFns m1 ∧ m1.size = m.size - 1 ∧ m1.entries.Perm m.entries ∧
      (m.cfg.InitialCap ≤ m.maxSize → m.cfg.InitialCap ≤ m1.maxSize) ∧
      (m.Sized → m1.Sized) := by
  have hneg : ¬ ((-1 : Int) > 0) := by decide
  have hadd : m.size + -1 = m.size - 1 := by ring
  unfold Map.changeSize at h
  simp only [hneg, if_false, hadd] at h
  split at h
  · split at h
    · simp at h
    · rename_i newSize _
      obtain ⟨hwf, hfn, hsize, hmax, hperm, hsd⟩ :=
        Map.SetCap_spec h (hs.with_size _) hsz
      refine ⟨hwf, hfn, hsize, hperm, fun _ => ?_, hsd⟩
      rw [hmax]
      refine le_trans ?_ (le_max_left _ _)
      split <;> omega
  · cases h
    exact ⟨⟨hs.with_size _, hsz, by show m.size - 1 ≤ m.maxSize; omega⟩, ⟨rfl, rfl, rfl⟩,
      rfl, List.Perm.refl _, fun h => h, fun h => h⟩

/-! ## The chain walks -/

theorem Map.setLoop_spec (eq : K → K → Bool) (key : K) (value : V) (hash : Nat)
    (chain : List (entry K V)) :
    ((Map.setLoop eq key value hash chain).2 = true ∧
        (∀ e ∈ chain, ¬ (hash = e.hash ∧ eq key e.key = true)) ∧
        (Map.setLoop eq key value hash chain).1 = chain ++ [⟨key, value, hash⟩]) ∨
    ((Map.setLoop eq key value hash chain).2 = false ∧
        ∃ (e : entry K V) (l1 l2 : List (entry K V)), chain = l1 ++ e :: l2 ∧
          (hash = e.hash ∧ eq key e.key = true) ∧
          (Map.setLoop eq key value hash chain).1 = l1 ++ { e with value := value } :: l2) := by
  induction chain with
  | nil => left; simp [Map.setLoop]
  | cons x xs ih =>
    by_cases hm : hash = x.hash ∧ eq key x.key = true
    · right
      refine ⟨by simp [Map.setLoop, hm], x, [], xs, rfl, hm, by simp [Map.setLoop, hm]⟩
    · rcases ih with ⟨h1, h2, h3⟩ | ⟨h1, e, l1, l2, h2, h3, h4⟩
      · left
        refine ⟨by simp [Map.setLoop, hm, h1], ?_, by simp [Map.setLoop, hm, h3]⟩
        intro e he
        rcases List.mem_cons.1 he with rfl | he
        · exact hm
        · exact h2 e he
      · right
        refine ⟨by simp [Map.setLoop, hm, h1], e, x :: l1, l2, by simp [h2], h3, ?_⟩
        simp [Map.setLoop, hm, h4]

theorem Map.deleteLoop_spec (eq : K → K → Bool) (key : K) (hash : Nat)
    (chain : List (entry K V)) :
    (Map.deleteLoop eq key hash chain = none ∧
        ∀ e ∈ chain, ¬ (hash = e.hash ∧ eq key e.key = true)) ∨
    (∃ (e : entry K V) (l1 l2 : List (entry K V)), chain = l1 ++ e :: l2 ∧
        (hash = e.hash ∧ eq key e.key = true) ∧
        Map.deleteLoop eq key hash chain = some (l1 ++ l2)) := by
  induction chain with
  | nil => left; simp [Map.deleteLoop]
  | cons x xs ih =>
    by_cases hm : hash = x.hash ∧ eq key x.key = true
    · right
      exact ⟨x, [], xs, rfl, hm, by simp [Map.deleteLoop, hm]⟩
    · rcases ih with ⟨h1, h2⟩ | ⟨e, l1, l2, h2, h3, h4⟩
      · left
        refine ⟨by simp [Map.deleteLoop, hm, h1], ?_⟩
        intro e he
        rcases List.mem_cons.1 he with rfl | he
        · exact hm
        · exact h2 e he
      · right
        exact ⟨e, x :: l1, l2, by simp [h2], h3, by simp [Map.deleteLoop, hm, h4]⟩

theorem Map.getLoop_of_no_match [Inhabited V] (eq : K → K → Bool) (key : K) (hash : Nat)
    (chain : List (entry K V))
    (h : ∀ e ∈ chain, ¬ (hash = e.hash ∧ eq key e.key = true)) :
    Map.getLoop eq key hash chain = (default, false) := by
  induction chain with
  | nil => rfl
  | cons x xs ih =>
    have hx := h x (by simp)
    simp only [Map.getLoop, hx, if_false]
    exact ih (fun e he => h e (List.mem_cons_of_mem _ he))

theorem Map.getLoop_of_mem [Inhabited V] (eq : K → K → Bool) (hash : K → Nat)
    (hl : Lawful eq hash) (key : K) (h : Nat) (chain : List (entry K V))
    (hp : chain.Pairwise (fun a b => eq a.key b.key = false))
    (e : entry K V) (he : e ∈ chain) (hm : h = e.hash ∧ eq key e.key = true) :
    Map.getLoop eq key h chain = (e.value, true) := by
  induction chain with
  | nil => simp at he
  | cons x xs ih =>
    rw [List.pairwise_cons] at hp
    by_cases hx : h = x.hash ∧ eq key x.key = true
    · simp only [Map.getLoop, hx, and_self, if_true]
      rcases List.mem_cons.1 he with rfl | he1
      · rfl
      · exfalso
        have h1 := hp.1 e he1
        have h2 := hl.trans _ _ _ (hl.symm _ _ hx.2) hm.2
        rw [h2] at h1
        exact Bool.noConfusion h1
    · rcases List.mem_cons.1 he with rfl | he1
      · exact absurd hm hx
      · simp only [Map.getLoop, hx, if_false]
        exact ih hp.2 he1

/-! ## Set and Delete -/

/-- A map that holds an entry has a bucket slice whose converted count is not 0. -/
theorem Map.Shape.length_ne {m : Map K V} (hs : m.Shape) (hne : m.entries ≠ []) :
    m.buckets.length % 4294967296 ≠ 0 := by
  obtain ⟨e, he⟩ := List.exists_mem_of_ne_nil _ hne
  obtain ⟨i, chain, hi, hec⟩ := exists_getElem?_of_mem_flatten _ e he
  exact (hs.placed i chain hi e hec).1

theorem Map.WF.entries_ne {m : Map K V} (hw : m.WF) (hz : m.size ≠ 0) : m.entries ≠ [] := by
  intro h
  have := hw.size_eq
  rw [h] at this
  exact hz (by simpa using this)

theorem Map.WF.entries_eq_nil {m : Map K V} (hw : m.WF) (hz : m.size = 0) :
    m.entries = [] := by
  have h1 := hw.size_eq
  rw [hz] at h1
  exact List.length_eq_zero.1 (by omega)

theorem Map.Shape.no_match_all {m : Map K V} (hs : m.Shape) (key : K) (h : Nat)
    (chain : List (entry K V))
    (hc : m.buckets[h % (m.buckets.length % 4294967296)]? = some chain)
    (hno : ∀ e ∈ chain, ¬ (h = e.hash ∧ m.eq key e.key = true)) :
    ∀ e ∈ m.entries, ¬ (h = e.hash ∧ m.eq key e.key = true) := by
  intro e he hm
  obtain ⟨i, c, hi, hec⟩ := exists_getElem?_of_mem_flatten _ e he
  have hpl := (hs.placed i c hi e hec).2
  rw [← hm.1] at hpl
  rw [hpl, hi] at hc
  cases hc
  exact hno e hec hm

theorem Map.Shape.set_bucket {m : Map K V} (hs : m.Shape) (idx : Nat)
    (c1 : List (entry K V))
    (h : ∀ x ∈ c1, (m.buckets.length % 4294967296 ≠ 0 ∧
      x.hash % (m.buckets.length % 4294967296) = idx) ∧ x.hash = m.hash x.key) :
    Map.Shape { m with buckets := m.buckets.set idx c1 } := by
  refine ⟨?_, ?_, ?_⟩
  · intro i chain hi x hx
    simp only [List.length_set] at hi ⊢
    rcases getElem?_set_cases _ _ _ _ _ hi with ⟨h1, h2⟩ | ⟨_, h2⟩
    · subst h1 h2
      exact (h x hx).1
    · exact hs.placed i chain h2 x hx
  · intro x hx
    obtain ⟨i, c, hi, hxc⟩ := exists_getElem?_of_mem_flatten _ x hx
    rcases getElem?_set_cases _ _ _ _ _ hi with ⟨_, h2⟩ | ⟨_, h2⟩
    · subst h2
      exact (h x hxc).2
    · exact hs.cached x (mem_flatten_of_getElem? _ i c h2 x hxc)
  · simpa using hs.alloc

theorem Map.Sized.with_buckets {m : Map K V} (h : m.Sized) (idx : Nat)
    (c1 : List (entry K V)) : Map.Sized { m with buckets := m.buckets.set idx c1 } := by
  unfold Map.Sized at h ⊢
  simpa using h

/-- The part of Set after the initial-capacity step, on the map `m0` that step returns. -/
theorem Map.Set_body {m m0 m1 : Map K V} {key : K} {value : V}
    (hpre : (if m.size = 0 then m.SetCap m.cfg.InitialCap else some m) = some m0)
    (h : m.Set key value = some m1) (hw : m0.WF) :
    m1.WF ∧ m0.SameFns m1 ∧ Map.SetEffect m0 m1 key value ∧ m0.maxSize ≤ m1.maxSize ∧
      (m0.Sized → m1.Sized) ∧ m0.buckets.length % 4294967296 ≠ 0 := by
  unfold Map.Set at h
  rw [hpre] at h
  simp only at h
  split at h
  · simp at h
  · rename_i idx hidx
    obtain ⟨hlen, hidx⟩ := Map.hashToBucketIdx_eq_some hidx
    subst hidx
    split at h
    · simp at h
    · rename_i chain hchain
      obtain ⟨others, hoth, hset⟩ := flatten_set_others m0.buckets _ chain hchain
      have hold : ∀ x ∈ chain, (m0.buckets.length % 4294967296 ≠ 0 ∧
          x.hash % (m0.buckets.length % 4294967296) =
            m0.hash key % (m0.buckets.length % 4294967296)) ∧
          x.hash = m0.hash x.key := fun x hx =>
        ⟨hw.shape.placed _ _ hchain x hx,
          hw.shape.cached x (mem_flatten_of_getElem? _ _ _ hchain x hx)⟩
      rcases Map.setLoop_spec m0.eq key value (m0.hash key) chain with
        ⟨hr2, hno, hr1⟩ | ⟨hr2, e, l1, l2, hc, hmatch, hr1⟩
      · -- a new entry is appended to the chain
        rw [if_pos hr2] at h
        have hsh := hw.shape.set_bucket (m0.hash key % (m0.buckets.length % 4294967296))
          (Map.setLoop m0.eq key value (m0.hash key) chain).1 (by
            intro x hx
            rw [hr1] at hx
            rcases List.mem_append.1 hx with hx | hx
            · exact hold x hx
            · simp only [List.mem_singleton] at hx
              subst hx
              exact ⟨⟨hlen, rfl⟩, rfl⟩)
        have hperm : (m0.buckets.set (m0.hash key % (m0.buckets.length % 4294967296))
            (Map.setLoop m0.eq key value (m0.hash key) chain).1).flatten.Perm
            (⟨key, value, m0.hash key⟩ :: m0.entries) := by
          refine (hset _).trans ?_
          rw [hr1, ← List.append_assoc]
          refine List.perm_append_comm.trans ?_
          simpa [Map.entries] using hoth.symm
        obtain ⟨hwf, hfn, _, hp1, hmax, hsd⟩ := Map.changeSize_inc_spec h hsh (by
          show m0.size + 1 = ((List.flatten _).length : Int)
          rw [hperm.length_eq, hw.size_eq]
          simp)
        exact ⟨hwf, hfn, Or.inr ⟨hw.shape.no_match_all key _ chain hchain hno,
          hp1.trans hperm⟩, hmax, fun hs0 => hsd (hs0.with_buckets _ _), hlen⟩
      · -- an existing entry is updated
        rw [if_neg (by rw [hr2]; decide)] at h
        cases h
        have hsh := hw.shape.set_bucket (m0.hash key % (m0.buckets.length % 4294967296))
          (Map.setLoop m0.eq key value (m0.hash key) chain).1 (by
            intro x hx
            rw [hr1] at hx
            have he : e ∈ chain := by rw [hc]; simp
            rcases List.mem_append.1 hx with hx | hx
            · exact hold x (by rw [hc]; exact List.mem_append_left _ hx)
            · rcases List.mem_cons.1 hx with hx | hx
              · subst hx
                exact hold e he
              · exact hold x (by
                  rw [hc]; exact List.mem_append_right _ (List.mem_cons_of_mem _ hx)))
        have hp0 : m0.entries.Perm (e :: (others ++ (l1 ++ l2))) := by
          refine hoth.trans ?_
          rw [hc]
          refine (List.Perm.append_left _ List.perm_middle).trans ?_
          exact List.perm_middle
        have hp1 : (m0.buckets.set (m0.hash key % (m0.buckets.length % 4294967296))
            (Map.setLoop m0.eq key value (m0.hash key) chain).1).flatten.Perm
            ({ e with value := value } :: (others ++ (l1 ++ l2))) := by
          refine (hset _).trans ?_
          rw [hr1]
          refine (List.Perm.append_left _ List.perm_middle).trans ?_
          exact List.perm_middle
        refine ⟨⟨hsh, ?_, hw.size_le⟩, ⟨rfl, rfl, rfl⟩, Or.inl ⟨e, _, hmatch, hp0, hp1⟩,
          le_refl _, fun hs0 => hs0.with_buckets _ _, hlen⟩
        show m0.size = ((List.flatten _).length : Int)
        rw [hp1.length_eq, hw.size_eq, hp0.length_eq]
        simp

/-- The initial-capacity step of Set: when Set returns, the step has returned a
well-formed map with the same entries. -/
theorem Map.Set_pre {m m1 : Map K V} {key : K} {value : V}
    (h : m.Set key value = some m1) (hw : m.WF) :
    ∃ m0, (if m.size = 0 then m.SetCap m.cfg.InitialCap else some m) = some m0 ∧
      m0.WF ∧ m.SameFns m0 ∧ m0.entries.Perm m.entries ∧ m0.size = m.size ∧
      (m.Sized → m0.Sized) ∧
      (m.size = 0 → m0.maxSize = max m.cfg.InitialCap 0) ∧ (m.size ≠ 0 → m0 = m) := by
  cases hpre : (if m.size = 0 then m.SetCap m.cfg.InitialCap else some m) with
  | none =>
    unfold Map.Set at h
    rw [hpre] at h
    simp at h
  | some m0 =>
    refine ⟨m0, rfl, ?_⟩
    by_cases hz : m.size = 0
    · rw [if_pos hz] at hpre
      obtain ⟨hwf0, hfn0, hsize0, hmax0, hperm0, hsd0⟩ :=
        Map.SetCap_spec hpre hw.shape hw.size_eq
      rw [hz] at hmax0
      exact ⟨hwf0, hfn0, hperm0, hsize0, hsd0, fun _ => hmax0, fun h => absurd hz h⟩
    · rw [if_neg hz] at hpre
      cases hpre
      exact ⟨hw, ⟨rfl, rfl, rfl⟩, List.Perm.refl _, rfl, fun h => h,
        fun h => absurd h hz, fun _ => rfl⟩

/-- What a returning Set leaves. -/
theorem Map.Set_spec {m m1 : Map K V} {key : K} {value : V}
    (h : m.Set key value = some m1) (hw : m.WF) :
    m1.WF ∧ m.SameFns m1 ∧ Map.SetEffect m m1 key value ∧ (m.Sized → m1.Sized) ∧
      ((m.size ≠ 0 → m.cfg.InitialCap ≤ m.maxSize) → m.cfg.InitialCap ≤ m1.maxSize) := by
  obtain ⟨m0, h0, hwf0, hfn0, hperm0, _, hsd0, hmax0, hsame⟩ := Map.Set_pre h hw
  obtain ⟨hwf1, hfn1, heff, hmax, hsd1, _⟩ := Map.Set_body h0 h hwf0
  obtain ⟨e0, e1, e2⟩ := hfn0
  obtain ⟨f0, f1, f2⟩ := hfn1
  refine ⟨hwf1, ⟨f0.trans e0, f1.trans e1, f2.trans e2⟩, ?_, fun hs => hsd1 (hsd0 hs), ?_⟩
  · rw [Map.SetEffect, e0, e1] at heff
    rcases heff with ⟨e, rest, hm, hp, hq⟩ | ⟨hno, hq⟩
    · exact Or.inl ⟨e, rest, hm, hperm0.symm.trans hp, hq⟩
    · exact Or.inr ⟨fun e he => hno e (hperm0.mem_iff.2 he),
        hq.trans (List.Perm.cons _ hperm0)⟩
  · intro hcap
    refine le_trans ?_ hmax
    by_cases hz : m.size = 0
    · rw [hmax0 hz]
      exact le_max_left _ _
    · rw [hsame hz]
      exact hcap hz

/-- What a returning Delete leaves. -/
theorem Map.Delete_spec {m m1 : Map K V} {key : K} (h : m.Delete key = some m1)
    (hw : m.WF) :
    m1.WF ∧ m.SameFns m1 ∧ Map.DeleteEffect m m1 key ∧ (m.Sized → m1.Sized) ∧
      (m.cfg.InitialCap ≤ m.maxSize → m.cfg.InitialCap ≤ m1.maxSize) := by
  unfold Map.Delete at h
  split at h
  · rename_i hz
    cases h
    refine ⟨hw, ⟨rfl, rfl, rfl⟩, Or.inr ⟨?_, rfl⟩, fun h => h, fun h => h⟩
    intro e he
    rw [hw.entries_eq_nil hz] at he
    simp at he
  · simp only at h
    split at h
    · simp at h
    · rename_i idx hidx
      obtain ⟨hlen, hidx⟩ := Map.hashToBucketIdx_eq_some hidx
      subst hidx
      split at h
      · simp at h
      · rename_i chain hchain
        rcases Map.deleteLoop_spec m.eq key (m.hash key) chain with
          ⟨hnone, hno⟩ | ⟨e, l1, l2, hc, hmatch, hsome⟩
        · rw [hnone] at h
          cases h
          exact ⟨hw, ⟨rfl, rfl, rfl⟩,
            Or.inr ⟨hw.shape.no_match_all key _ chain hchain hno, rfl⟩, fun h => h, fun h => h⟩
        · rw [hsome] at h
          simp only at h
          obtain ⟨others, hoth, hset⟩ := flatten_set_others m.buckets _ chain hchain
          have hsh := hw.shape.set_bucket (m.hash key % (m.buckets.length % 4294967296))
            (l1 ++ l2) (by
              intro x hx
              have hx1 : x ∈ chain := by
                rw [hc]
                rcases List.mem_append.1 hx with hx | hx
                · exact List.mem_append_left _ hx
                · exact List.mem_append_right _ (List.mem_cons_of_mem _ hx)
              exact ⟨hw.shape.placed _ _ hchain x hx1,
                hw.shape.cached x (mem_flatten_of_getElem? _ _ _ hchain x hx1)⟩)
          have hp0 : m.entries.Perm
              (e :: (m.buckets.set (m.hash key % (m.buckets.length % 4294967296))
                (l1 ++ l2)).flatten) := by
            refine hoth.trans ?_
            rw [hc]
            refine (List.Perm.append_left _ List.perm_middle).trans ?_
            refine List.perm_middle.trans ?_
            exact List.Perm.cons _ (hset _).symm
          obtain ⟨hwf, hfn, _, hp1, hcap, hsd⟩ := Map.changeSize_dec_spec h hsh (by
            show m.size - 1 = ((List.flatten _).length : Int)
            have := hp0.length_eq
            simp only [List.length_cons] at this
            rw [hw.size_eq, this]
            simp) hw.size_le
          exact ⟨hwf, hfn, Or.inl ⟨e, hmatch, hp0.trans (List.Perm.cons _ hp1.symm)⟩,
            fun hs0 => hsd (hs0.with_buckets _ _), hcap⟩

/-- Set returns when the map holds the key, or finds room for a new one. -/
theorem Map.Set_returns (m : Map K V) (key : K) (value : V) (hw : m.WF) (hsd : m.Sized)
    (hic : 1 ≤ m.cfg.InitialCap)
    (h : (∃ e ∈ m.entries, m.hash key = e.hash ∧ m.eq key e.key = true) ∨ m.SetFits) :
    ∃ m1, m.Set key value = some m1 := by
  -- the initial-capacity step
  have hpre : ∃ m0, (if m.size = 0 then m.SetCap m.cfg.InitialCap else some m) = some m0 ∧
      m0.WF ∧ m0.buckets.length % 4294967296 ≠ 0 ∧ m0.cfg = m.cfg ∧ m0.eq = m.eq ∧
      m0.hash = m.hash ∧ m0.entries.Perm m.entries ∧
      (m.size = 0 → m0.size = 0 ∧ 1 ≤ m0.maxSize) ∧ (m.size ≠ 0 → m0 = m) := by
    by_cases hz : m.size = 0
    · have hnil := hw.entries_eq_nil hz
      have hfits : m.cfg.Fits m.cfg.InitialCap := by
        rcases h with ⟨e, he, _⟩ | hf
        · rw [hnil] at he
          simp at he
        · exact hf.1 hz
      have hmax : max m.cfg.InitialCap m.size = m.cfg.InitialCap := by
        rw [hz]
        exact max_eq_left (by omega)
      obtain ⟨m0, h0⟩ := Map.SetCap_returns_of_fits m m.cfg.InitialCap
        (Or.inr (by rw [hmax]; exact hfits))
      obtain ⟨hwf0, hfn0, hsize0, hmax0, hperm0, hsd0⟩ :=
        Map.SetCap_spec h0 hw.shape hw.size_eq
      obtain ⟨n, ms, hdiv, _, hn1, hn2⟩ := hfits
      have hlen : ((m0.buckets.length : Nat) : Int) = n := by
        have h1 := (hsd0 hsd).1
        rw [hmax0, hmax, hfn0.2.2, hdiv] at h1
        exact (Option.some.inj h1).symm
      refine ⟨m0, by rw [if_pos hz]; exact h0, hwf0, by omega, hfn0.2.2, hfn0.1, hfn0.2.1,
        hperm0, fun _ => ⟨by rw [hsize0]; exact hz, by rw [hmax0, hmax]; exact hic⟩,
        fun h => absurd hz h⟩
    · exact ⟨m, by rw [if_neg hz], hw, hw.shape.length_ne (hw.entries_ne hz), rfl, rfl, rfl,
        List.Perm.refl _, fun h => absurd h hz, fun _ => rfl⟩
  obtain ⟨m0, h0, hwf0, hlen0, hcfg0, heq0, hhash0, hperm0, hzero, hsame⟩ := hpre
  obtain ⟨chain, hidx, hchain⟩ := Map.bucket_of_ne m0 (m0.hash key) hlen0
  unfold Map.Set
  rw [h0]
  simp only [hidx, hchain]
  rcases Map.setLoop_spec m0.eq key value (m0.hash key) chain with
    ⟨hr2, hno, _⟩ | ⟨hr2, _⟩
  · rw [if_pos hr2]
    unfold Map.changeSize
    simp only [gt_iff_lt, zero_lt_one, if_true]
    by_cases hgt : m0.maxSize < m0.size + 1
    · rw [if_pos hgt]
      have hz : m.size ≠ 0 := by
        intro hz
        obtain ⟨a, b⟩ := hzero hz
        omega
      have hm0 := hsame hz
      subst hm0
      have hnone := hw.shape.no_match_all key _ chain hchain hno
      rcases h with ⟨e, he, hm⟩ | hf
      · exact absurd hm (hnone e he)
      · obtain ⟨newSize, htr, hfits⟩ := hf.2 hz (by omega)
        simp only [htr]
        exact Map.SetCap_returns_of_fits _ newSize (Or.inr hfits)
    · rw [if_neg hgt]
      exact ⟨_, rfl⟩
  · rw [if_neg (by rw [hr2]; decide)]
    exact ⟨_, rfl⟩

/-- Set divides by zero when the bucket count of the map its initial-capacity step
returns converts to the uint32 0. -/
theorem Map.Set_none_of_idx {m m0 : Map K V} (key : K) (value : V)
    (hpre : (if m.size = 0 then m.SetCap m.cfg.InitialCap else some m) = some m0)
    (hidx : m0.hashToBucketIdx (m0.hash key) = none) : m.Set key value = none := by
  unfold Map.Set
  rw [hpre]
  simp only [hidx]

/-- Delete returns when the map lacks the key, or can shrink. -/
theorem Map.Delete_returns (m : Map K V) (key : K) (hw : m.WF)
    (h : (∀ e ∈ m.entries, ¬ (m.hash key = e.hash ∧ m.eq key e.key = true)) ∨
      m.DeleteFits) :
    ∃ m1, m.Delete key = some m1 := by
  unfold Map.Delete
  by_cases hz : m.size = 0
  · rw [if_pos hz]
    exact ⟨m, rfl⟩
  · rw [if_neg hz]
    obtain ⟨chain, hidx, hchain⟩ :=
      Map.bucket_of_ne m (m.hash key) (hw.shape.length_ne (hw.entries_ne hz))
    simp only [hidx, hchain]
    rcases Map.deleteLoop_spec m.eq key (m.hash key) chain with
      ⟨hnone, _⟩ | ⟨e, l1, l2, hc, hmatch, hsome⟩
    · rw [hnone]
      exact ⟨m, rfl⟩
    · rw [hsome]
      simp only
      have he : e ∈ m.entries :=
        mem_flatten_of_getElem? _ _ _ hchain e (by rw [hc]; simp)
      rcases h with hno | hf
      · exact absurd hmatch (hno e he)
      · have hneg : ¬ ((-1 : Int) > 0) := by decide
        have hadd : m.size + -1 = m.size - 1 := by ring
        unfold Map.changeSize
        simp only [hneg, if_false, hadd]
        by_cases hc : m.size - 1 < m.minSize ∧ m.maxSize > m.cfg.InitialCap
        · rw [if_pos hc]
          obtain ⟨newSize, htr, hfits⟩ := hf hc.1 hc.2
          simp only [htr, max_of_ite]
          exact Map.SetCap_returns_of_fits _ _ hfits
        · rw [if_neg hc]
          exact ⟨_, rfl⟩

/-! ## Invariants of reachable maps -/

theorem Map.Clone_eq (m : Map K V) : m.Clone = m := by
  have h : ∀ L : List (List (entry K V)),
      L.map (fun chain => chain.map (fun e => (⟨e.key, e.value, e.hash⟩ : entry K V))) = L := by
    intro L
    have h1 : (fun e : entry K V => (⟨e.key, e.value, e.hash⟩ : entry K V)) = id := rfl
    simp [h1]
  cases m
  simp [Map.Clone, h]

theorem f64_eval : f64 (8 / 10) = 3602879701896397 / 4503599627370496 ∧
    f64 (25 / 100) = 1 / 4 ∧ f64 (6 / 10) = 5404319552844595 / 9007199254740992 ∧
    f64 (59 / 100) = 5314247560297185 / 9007199254740992 ∧ f64 (15 / 10) = 3 / 2 := by
  decide!

theorem Config.setDefaults_grow_ne (cfg : Config) :
    cfg.setDefaults.GrowLoadLimit ≠ 0 := by
  have hd : DefaultGrowLoadLimit ≠ 0 := by
    unfold DefaultGrowLoadLimit
    rw [f64_eval.1]
    norm_num
  unfold Config.setDefaults
  by_cases h1 : cfg.InitialCap = 0 <;> by_cases h2 : cfg.GrowLoadLimit = 0 <;>
    by_cases h3 : cfg.ShrinkLoadLimit = 0 <;> by_cases h4 : cfg.ChangeFactor = 0 <;>
    simp [h1, h2, h3, h4, hd]

theorem ceilDiv_zero (d : ℚ) (hd : d ≠ 0) : ceilDiv 0 d = some 0 := by
  have h0 : float64 0 = some 0 := by simp [float64]
  have h1 : toInt (Ceil 0) = some 0 := by decide!
  simp [ceilDiv, h0, hd, h1]

theorem ceilMul_zero (f : ℚ) : ceilMul 0 f = some 0 := by
  have h0 : float64 0 = some 0 := by simp [float64]
  have h1 : toInt (Ceil 0) = some 0 := by decide!
  simp [ceilMul, h0, h1]

theorem NewConfig_WF (eq : K → K → Bool) (hash : K → Nat) (cfg : Config) :
    (NewConfig eq hash cfg : Map K V).WF ∧ (NewConfig eq hash cfg : Map K V).Sized := by
  refine ⟨⟨⟨?_, ?_, ?_⟩, ?_, ?_⟩, ?_, ?_⟩
  · intro i chain hi
    simp [NewConfig] at hi
  · intro e he
    simp [NewConfig, Map.entries] at he
  · simp [NewConfig, maxAlloc]
  · simp [NewConfig, Map.entries]
  · simp [NewConfig]
  · exact ceilDiv_zero _ (Config.setDefaults_grow_ne cfg)
  · exact ceilMul_zero _

/-- Every reachable map is well-formed, has the bucket count and shrink floor SetCap
derives from its capacity, and carries the functions and the configuration (with
defaults applied) it was created with. -/
theorem Reachable.inv {eq : K → K → Bool} {hash : K → Nat} {cfg : Config} {m : Map K V}
    (hr : Reachable eq hash cfg m) :
    m.WF ∧ m.Sized ∧ m.eq = eq ∧ m.hash = hash ∧ m.cfg = cfg.setDefaults := by
  induction hr with
  | new => exact ⟨(NewConfig_WF eq hash cfg).1, (NewConfig_WF eq hash cfg).2, rfl, rfl, rfl⟩
  | set key value _ hstep ih =>
    obtain ⟨hw, hsd, h1, h2, h3⟩ := ih
    obtain ⟨hw2, ⟨f1, f2, f3⟩, _, hsd2, _⟩ := Map.Set_spec hstep hw
    exact ⟨hw2, hsd2 hsd, f1.trans h1, f2.trans h2, f3.trans h3⟩
  | delete key _ hstep ih =>
    obtain ⟨hw, hsd, h1, h2, h3⟩ := ih
    obtain ⟨hw2, ⟨f1, f2, f3⟩, _, hsd2, _⟩ := Map.Delete_spec hstep hw
    exact ⟨hw2, hsd2 hsd, f1.trans h1, f2.trans h2, f3.trans h3⟩
  | setCap capacity _ hstep ih =>
    obtain ⟨hw, hsd, h1, h2, h3⟩ := ih
    obtain ⟨hw2, ⟨f1, f2, f3⟩, _, _, _, hsd2⟩ := Map.SetCap_spec hstep hw.shape hw.size_eq
    exact ⟨hw2, hsd2 hsd, f1.trans h1, f2.trans h2, f3.trans h3⟩
  | clone _ ih =>
    rw [Map.Clone_eq]
    exact ih

theorem Lawful.eq_false_symm {eq : K → K → Bool} {hash : K → Nat} (hl : Lawful eq hash)
    {a b : K} (h : eq a b = false) : eq b a = false := by
  cases hba : eq b a with
  | false => rfl
  | true =>
    rw [hl.symm _ _ hba] at h
    exact Bool.noConfusion h

theorem Map.NoDup.of_perm {m m1 : Map K V} (hl : Lawful m.eq m.hash) (hn : m.NoDup)
    (he : m1.eq = m.eq) (hp : m1.entries.Perm m.entries) : m1.NoDup := by
  unfold Map.NoDup
  rw [he]
  exact hp.symm.pairwise hn (fun h => hl.eq_false_symm h)

theorem Map.NoDup.set {m m1 : Map K V} (hl : Lawful m.eq m.hash) (hw : m.WF) (hn : m.NoDup)
    (hf : m.SameFns m1) (key : K) (value : V) (heff : Map.SetEffect m m1 key value) :
    m1.NoDup := by
  unfold Map.NoDup at hn ⊢
  rw [hf.1]
  have hsymm : ∀ {x y : entry K V}, m.eq x.key y.key = false → m.eq y.key x.key = false :=
    fun h => hl.eq_false_symm h
  rcases heff with ⟨e, rest, _, hp, hq⟩ | ⟨hno, hq⟩
  · have h1 := hp.pairwise hn hsymm
    refine hq.symm.pairwise ?_ hsymm
    rw [List.pairwise_cons] at h1 ⊢
    exact h1
  · refine hq.symm.pairwise ?_ hsymm
    rw [List.pairwise_cons]
    refine ⟨?_, hn⟩
    intro a ha
    cases hka : m.eq key a.key with
    | false => rfl
    | true =>
      exfalso
      refine hno a ha ⟨?_, hka⟩
      rw [hw.shape.cached a ha]
      exact hl.hash_eq _ _ hka

theorem Map.NoDup.delete {m m1 : Map K V} (hl : Lawful m.eq m.hash) (hn : m.NoDup)
    (hf : m.SameFns m1) (key : K) (heff : Map.DeleteEffect m m1 key) : m1.NoDup := by
  rcases heff with ⟨e, _, hp⟩ | ⟨_, rfl⟩
  · unfold Map.NoDup at hn ⊢
    rw [hf.1]
    have h1 := hp.pairwise hn (fun h => hl.eq_false_symm h)
    exact (List.pairwise_cons.1 h1).2
  · exact hn

theorem Reachable.nodup {eq : K → K → Bool} {hash : K → Nat} {cfg : Config} {m : Map K V}
    (hl : Lawful eq hash) (hr : Reachable eq hash cfg m) : m.NoDup := by
  induction hr with
  | new => simp [Map.NoDup, Map.entries, NewConfig]
  | set key value hprev hstep ih =>
    obtain ⟨hw, _, h1, h2, _⟩ := hprev.inv
    obtain ⟨_, hf, heff, _⟩ := Map.Set_spec hstep hw
    exact Map.NoDup.set (by rw [h1, h2]; exact hl) hw ih hf key value heff
  | delete key hprev hstep ih =>
    obtain ⟨hw, _, h1, h2, _⟩ := hprev.inv
    obtain ⟨_, hf, heff, _⟩ := Map.Delete_spec hstep hw
    exact Map.NoDup.delete (by rw [h1, h2]; exact hl) ih hf key heff
  | setCap capacity hprev hstep ih =>
    obtain ⟨hw, _, h1, h2, _⟩ := hprev.inv
    obtain ⟨_, hf, _, _, hp, _⟩ := Map.SetCap_spec hstep hw.shape hw.size_eq
    exact Map.NoDup.of_perm (by rw [h1, h2]; exact hl) ih hf.1 hp
  | clone _ ih =>
    rw [Map.Clone_eq]
    exact ih

/-! ## GetOK in terms of the entries -/

theorem Map.GetOK_of_absent [Inhabited V] (m : Map K V) (key : K) (hw : m.WF)
    (h : ∀ e ∈ m.entries, ¬ (m.hash key = e.hash ∧ m.eq key e.key = true)) :
    m.GetOK key = some (default, false) := by
  by_cases hz : m.size = 0
  · simp [Map.GetOK, hz]
  · obtain ⟨chain, hidx, hchain⟩ :=
      Map.bucket_of_ne m (m.hash key) (hw.shape.length_ne (hw.entries_ne hz))
    simp only [Map.GetOK, hz, if_false, hidx, hchain]
    rw [Map.getLoop_of_no_match]
    exact fun e he => h e (mem_flatten_of_getElem? _ _ _ hchain e he)

theorem Map.GetOK_of_mem [Inhabited V] (m : Map K V) (key : K) (hl : Lawful m.eq m.hash)
    (hw : m.WF) (hn : m.NoDup) (e : entry K V) (he : e ∈ m.entries)
    (hk : m.eq key e.key = true) : m.GetOK key = some (e.value, true) := by
  have hz : m.size ≠ 0 := by
    have h1 := hw.size_eq
    have h2 : 0 < m.entries.length := List.length_pos.2 (List.ne_nil_of_mem he)
    omega
  have hh : m.hash key = e.hash := by
    rw [hw.shape.cached e he]
    exact hl.hash_eq _ _ hk
  obtain ⟨i, chain, hi, hec⟩ := exists_getElem?_of_mem_flatten _ e he
  obtain ⟨hlen, hpl⟩ := hw.shape.placed i chain hi e hec
  rw [← hh] at hpl
  rw [← hpl] at hi
  simp only [Map.GetOK, hz, if_false, Map.hashToBucketIdx_of_ne _ hlen, hi]
  rw [Map.getLoop_of_mem m.eq m.hash hl key (m.hash key) chain ?_ e hec ⟨hh, hk⟩]
  exact List.Pairwise.sublist
    (List.sublist_flatten_of_mem (List.mem_iff_getElem?.2 ⟨_, hi⟩)) hn

theorem Map.absent_of_eq_false {m : Map K V} (key : K)
    (h : ∀ e ∈ m.entries, m.eq key e.key = false) :
    ∀ e ∈ m.entries, ¬ (m.hash key = e.hash ∧ m.eq key e.key = true) := by
  intro e he hm
  rw [h e he] at hm
  exact Bool.noConfusion hm.2

/-- GetOK always returns on a well-formed map, and reports presence exactly when some
entry has an eq-equal key, with that entry's value. -/
theorem Map.GetOK_cases [Inhabited V] (m : Map K V) (key : K) (hl : Lawful m.eq m.hash)
    (hw : m.WF) (hn : m.NoDup) :
    (m.GetOK key = some (default, false) ∧ ∀ e ∈ m.entries, m.eq key e.key = false) ∨
    (∃ e ∈ m.entries, m.eq key e.key = true ∧ m.GetOK key = some (e.value, true)) := by
  by_cases h : ∃ e ∈ m.entries, m.eq key e.key = true
  · obtain ⟨e, he, hk⟩ := h
    exact Or.inr ⟨e, he, hk, Map.GetOK_of_mem m key hl hw hn e he hk⟩
  · have h1 : ∀ e ∈ m.entries, m.eq key e.key = false := by
      intro e he
      cases hk : m.eq key e.key with
      | false => rfl
      | true => exact absurd ⟨e, he, hk⟩ h
    exact Or.inl ⟨Map.GetOK_of_absent m key hw (Map.absent_of_eq_false key h1), h1⟩

theorem Map.GetOK_congr [Inhabited V] (m m1 : Map K V) (key : K) (hl : Lawful m.eq m.hash)
    (hw : m.WF) (hn : m.NoDup) (hw1 : m1.WF) (hn1 : m1.NoDup) (hf : m.SameFns m1)
    (h : ∀ e : entry K V, m.eq key e.key = true → (e ∈ m1.entries ↔ e ∈ m.entries)) :
    m1.GetOK key = m.GetOK key := by
  have hl1 : Lawful m1.eq m1.hash := by rw [hf.1, hf.2.1]; exact hl
  rcases Map.GetOK_cases m key hl hw hn with ⟨hg, habs⟩ | ⟨e, he, hk, hg⟩
  · rw [hg]
    apply Map.GetOK_of_absent m1 key hw1
    intro e he hm
    rw [hf.1] at hm
    have := habs e ((h e hm.2).1 he)
    rw [this] at hm
    exact Bool.noConfusion hm.2
  · rw [hg]
    exact Map.GetOK_of_mem m1 key hl1 hw1 hn1 e ((h e hk).2 he) (by rw [hf.1]; exact hk)

/-- On a reachable map, GetOK reports a key present exactly when an entry matches it. -/
theorem Map.present_iff [Inhabited V] (m : Map K V) (key : K) (hl : Lawful m.eq m.hash)
    (hw : m.WF) (hn : m.NoDup) :
    (∃ v, m.GetOK key = some (v, true)) ↔
      ∃ e ∈ m.entries, m.hash key = e.hash ∧ m.eq key e.key = true := by
  constructor
  · rintro ⟨v, hv⟩
    rcases Map.GetOK_cases m key hl hw hn with ⟨hg, _⟩ | ⟨e, he, hk, _⟩
    · rw [hg] at hv
      simp at hv
    · refine ⟨e, he, ?_, hk⟩
      rw [hw.shape.cached e he]
      exact hl.hash_eq _ _ hk
  · rintro ⟨e, he, _, hk⟩
    exact ⟨e.value, Map.GetOK_of_mem m key hl hw hn e he hk⟩

theorem Map.absent_iff [Inhabited V] (m : Map K V) (key : K) (hl : Lawful m.eq m.hash)
    (hw : m.WF) (hn : m.NoDup) :
    (∃ v, m.GetOK key = some (v, false)) ↔
      ∀ e ∈ m.entries, ¬ (m.hash key = e.hash ∧ m.eq key e.key = true) := by
  constructor
  · rintro ⟨v, hv⟩
    rcases Map.GetOK_cases m key hl hw hn with ⟨_, ha⟩ | ⟨e, _, _, hg⟩
    · exact Map.absent_of_eq_false key ha
    · rw [hg] at hv
      simp at hv
  · intro h
    exact ⟨default, Map.GetOK_of_absent m key hw h⟩

theorem Lawful.intEq_intHash : Lawful intEq intHash where
  refl := by intro a; simp [intEq]
  symm := by intro a b h; simp [intEq] at h ⊢; exact h.symm
  trans := by intro a b c h1 h2; simp [intEq] at h1 h2 ⊢; exact h1.trans h2
  hash_eq := by intro a b h; simp [intEq] at h; rw [h]

/-! ## Configurations -/

theorem Config.Valid.setDefaults {cfg : Config} (h : cfg.Valid) : cfg.setDefaults =
    (if cfg.ShrinkLoadLimit = 0 then { cfg with ShrinkLoadLimit := DefaultShrinkLoadLimit }
      else cfg) := by
  have h1 : cfg.InitialCap ≠ 0 := by have := h.initialCap_pos; omega
  have h2 : cfg.GrowLoadLimit ≠ 0 := ne_of_gt h.grow_pos
  have h3 : cfg.ChangeFactor ≠ 0 := ne_of_gt (lt_trans zero_lt_one h.change_gt_one)
  unfold Config.setDefaults
  simp only [h1, h2, if_false]
  split <;> simp [h3]

theorem Config.Valid.initialCap_setDefaults {cfg : Config} (h : cfg.Valid) :
    cfg.setDefaults.InitialCap = cfg.InitialCap := by
  rw [h.setDefaults]
  split <;> rfl

theorem defaultConfig_valid : defaultConfig.Valid := by
  have h : defaultConfig = ⟨8, 3602879701896397 / 4503599627370496, 1 / 4, 2⟩ := by decide!
  rw [h]
  constructor <;> norm_num

theorem testCfg_valid : testCfg.Valid := by
  have h : testCfg = ⟨10, 3602879701896397 / 4503599627370496, 1 / 4, 2⟩ := by decide!
  rw [h]
  constructor <;> norm_num

/-- A run that returns ends in a reachable map. -/
theorem Reachable.of_run {eq : K → K → Bool} {hash : K → Nat} {cfg : Config}
    (ops : List (Op K V)) {m m1 : Map K V} (hr : Reachable eq hash cfg m)
    (h : run m ops = some m1) : Reachable eq hash cfg m1 := by
  induction ops generalizing m with
  | nil =>
    cases h
    exact hr
  | cons op rest ih =>
    unfold run at h
    split at h
    · simp at h
    · rename_i m2 h2
      cases op with
      | set key value => exact ih (Reachable.set key value hr h2) h
      | delete key => exact ih (Reachable.delete key hr h2) h

/-! ## float64 rounding and small integers -/

theorem pow2_eq (e : Int) : pow2 e = (2 : ℚ) ^ e := by
  unfold pow2
  split
  · rename_i h
    have he : e = ((e.toNat : Nat) : Int) := (Int.toNat_of_nonneg h).symm
    conv_rhs => rw [he]
    rw [zpow_natCast]
    push_cast
    rfl
  · rename_i h
    have he : e = -(((-e).toNat : Nat) : Int) := by
      rw [Int.toNat_of_nonneg (by omega)]
      ring
    conv_rhs => rw [he]
    rw [zpow_neg, zpow_natCast]
    push_cast
    rw [one_div]

theorem pow2_pos (e : Int) : 0 < pow2 e := by
  rw [pow2_eq]
  positivity

theorem log2Aux_spec (fuel n : Nat) (h1 : 1 ≤ n) (h2 : n ≤ fuel) :
    2 ^ log2Aux fuel n ≤ n ∧ n < 2 ^ (log2Aux fuel n + 1) := by
  induction fuel generalizing n with
  | zero => omega
  | succ fuel ih =>
    unfold log2Aux
    split
    · rename_i hlt
      have : n = 1 := by omega
      subst this
      simp
    · rename_i hge
      obtain ⟨a, b⟩ := ih (n / 2) (by omega) (by omega)
      constructor
      · rw [pow_succ]
        omega
      · rw [pow_succ]
        omega

theorem log2_spec (n : Nat) (h1 : 1 ≤ n) : 2 ^ log2 n ≤ n ∧ n < 2 ^ (log2 n + 1) :=
  log2Aux_spec n n h1 (le_refl n)

theorem ite_abs (x : ℚ) : (if 0 ≤ x then x else -x) = |x| := by
  split
  · rename_i h
    exact (abs_of_nonneg h).symm
  · rename_i h
    exact (abs_of_neg (not_le.1 h)).symm

/-- The binary exponent is not above the value: 2^(exponent x) <= |x|. -/
theorem pow2_exponent_le (x : ℚ) (hx : x ≠ 0) : pow2 (exponent x) ≤ |x| := by
  unfold exponent
  simp only [ite_abs]
  split
  · assumption
  · have hp : 1 ≤ x.num.natAbs := by
      have : x.num ≠ 0 := Rat.num_ne_zero.2 hx
      omega
    have hd : 1 ≤ x.den := x.den_pos
    obtain ⟨a1, _⟩ := log2_spec _ hp
    obtain ⟨_, b2⟩ := log2_spec _ hd
    have habs : |x| = (x.num.natAbs : ℚ) / (x.den : ℚ) := by
      conv_lhs => rw [← Rat.num_div_den x]
      rw [abs_div, Nat.abs_cast, Nat.cast_natAbs, Int.cast_abs]
    have hdq : (0 : ℚ) < (x.den : ℚ) := by exact_mod_cast hd
    rw [habs, pow2_eq, le_div_iff₀ hdq]
    have e1 : ((log2 x.num.natAbs : Nat) : Int) - ((log2 x.den : Nat) : Int) - 1 =
        ((log2 x.num.natAbs : Nat) : Int) - (((log2 x.den + 1 : Nat)) : Int) := by
      push_cast
      ring
    rw [e1, zpow_sub₀ (by norm_num), zpow_natCast, zpow_natCast]
    have a1q : ((2 : ℚ) ^ log2 x.num.natAbs) ≤ (x.num.natAbs : ℚ) := by exact_mod_cast a1
    have b2q : (x.den : ℚ) ≤ (2 : ℚ) ^ (log2 x.den + 1) := by exact_mod_cast le_of_lt b2
    have hpos : (0 : ℚ) < (2 : ℚ) ^ (log2 x.den + 1) := by positivity
    calc (2 : ℚ) ^ log2 x.num.natAbs / (2 : ℚ) ^ (log2 x.den + 1) * (x.den : ℚ)
        ≤ (2 : ℚ) ^ log2 x.num.natAbs / (2 : ℚ) ^ (log2 x.den + 1)
            * (2 : ℚ) ^ (log2 x.den + 1) :=
          mul_le_mul_of_nonneg_left b2q (by positivity)
      _ = (2 : ℚ) ^ log2 x.num.natAbs := by field_simp
      _ ≤ (x.num.natAbs : ℚ) := a1q

theorem exponent_le (x : ℚ) (hx : x ≠ 0) (k : Nat) (h : |x| ≤ (2 : ℚ) ^ k) :
    exponent x ≤ (k : Int) := by
  have h1 := pow2_exponent_le x hx
  rw [pow2_eq] at h1
  have h2 : (2 : ℚ) ^ (exponent x) ≤ (2 : ℚ) ^ ((k : Nat) : Int) := by
    rw [zpow_natCast]
    exact le_trans h1 h
  exact (zpow_le_zpow_iff_right₀ (by norm_num : (1 : ℚ) < 2)).1 h2

theorem roundHalfEven_le (y : ℚ) (k : Int) (h : y ≤ (k : ℚ)) : roundHalfEven y ≤ k := by
  have hf : ⌊y⌋ ≤ k := by
    have : (⌊y⌋ : ℚ) ≤ (k : ℚ) := le_trans (Int.floor_le y) h
    exact_mod_cast this
  have hup : (1 : ℚ) / 2 ≤ y - (⌊y⌋ : ℚ) → ⌊y⌋ + 1 ≤ k := by
    intro h1
    have h2 : (⌊y⌋ : ℚ) < (k : ℚ) := by linarith
    have h3 : ⌊y⌋ < k := by exact_mod_cast h2
    omega
  unfold roundHalfEven
  simp only
  split
  · exact hf
  · rename_i h1
    split
    · exact hup (not_lt.1 h1)
    · split
      · exact hf
      · exact hup (not_lt.1 h1)

theorem roundHalfEven_int (k : Int) : roundHalfEven (k : ℚ) = k := by
  unfold roundHalfEven
  simp

/-- The unit in the last place of a value of binary exponent at most 52 is 1 / 2^j. -/
theorem pow2_small (e : Int) (h : e ≤ 52) :
    ∃ j : Nat, pow2 (e - 52) * ((2 ^ j : Nat) : ℚ) = 1 := by
  refine ⟨(52 - e).toNat, ?_⟩
  rw [pow2_eq]
  have he : e - 52 = -(((52 - e).toNat : Nat) : Int) := by
    rw [Int.toNat_of_nonneg (by omega)]
    ring
  rw [he, zpow_neg, zpow_natCast]
  push_cast
  field_simp

/-- Rounding to float64 does not cross an integer of at most 2^52 from below. -/
theorem float64_le_int (x r : ℚ) (N : Int) (h0 : 0 ≤ N) (h1 : N ≤ 4503599627370496)
    (hx : x ≤ (N : ℚ)) (h : float64 x = some r) : r ≤ (N : ℚ) := by
  unfold float64 at h
  split at h
  · cases h
    exact_mod_cast h0
  · rename_i hne
    simp only at h
    split at h
    · cases h
      have hq := pow2_pos (max (exponent x) (-1022) - 52)
      rcases lt_or_le x 0 with hneg | hpos
      · have h2 : roundHalfEven (x / pow2 (max (exponent x) (-1022) - 52)) ≤ 0 :=
          roundHalfEven_le _ 0 (by
            push_cast
            exact le_of_lt (div_neg_of_neg_of_pos hneg hq))
        have h3 : ((roundHalfEven (x / pow2 (max (exponent x) (-1022) - 52)) : Int) : ℚ) ≤ 0 := by
          exact_mod_cast h2
        have h4 : (0 : ℚ) ≤ (N : ℚ) := by exact_mod_cast h0
        nlinarith
      · have habs : |x| ≤ (2 : ℚ) ^ 52 := by
          rw [abs_of_nonneg hpos]
          have : (N : ℚ) ≤ 4503599627370496 := by exact_mod_cast h1
          norm_num
          linarith
        have he := exponent_le x hne 52 habs
        obtain ⟨j, hj⟩ := pow2_small (max (exponent x) (-1022)) (by
          rw [max_le_iff]
          exact ⟨by exact_mod_cast he, by decide⟩)
        have hdiv : x / pow2 (max (exponent x) (-1022) - 52) ≤ ((N * (2 ^ j : Nat) : Int) : ℚ) := by
          rw [div_le_iff₀ hq]
          push_cast
          have : (N : ℚ) * (2 : ℚ) ^ j * pow2 (max (exponent x) (-1022) - 52) = (N : ℚ) := by
            have hj2 : pow2 (max (exponent x) (-1022) - 52) * (2 : ℚ) ^ j = 1 := by
              have := hj
              push_cast at this
              exact this
            calc (N : ℚ) * (2 : ℚ) ^ j * pow2 (max (exponent x) (-1022) - 52)
                = (N : ℚ) * (pow2 (max (exponent x) (-1022) - 52) * (2 : ℚ) ^ j) := by ring
              _ = (N : ℚ) := by rw [hj2, mul_one]
          rw [this]
          exact hx
        have h2 := roundHalfEven_le _ _ hdiv
        have h3 : ((roundHalfEven (x / pow2 (max (exponent x) (-1022) - 52)) : Int) : ℚ) ≤
            ((N * (2 ^ j : Nat) : Int) : ℚ) := by exact_mod_cast h2
        have hj2 : pow2 (max (exponent x) (-1022) - 52) * (2 : ℚ) ^ j = 1 := by
          have := hj
          push_cast at this
          exact this
        calc ((roundHalfEven (x / pow2 (max (exponent x) (-1022) - 52)) : Int) : ℚ)
              * pow2 (max (exponent x) (-1022) - 52)
            ≤ ((N * (2 ^ j : Nat) : Int) : ℚ) * pow2 (max (exponent x) (-1022) - 52) :=
              mul_le_mul_of_nonneg_right h3 (le_of_lt hq)
          _ = (N : ℚ) * (pow2 (max (exponent x) (-1022) - 52) * (2 : ℚ) ^ j) := by
              push_cast
              ring
          _ = (N : ℚ) := by rw [hj2, mul_one]
    · simp at h

/-- The conversion float64(n) of an int of at most 2^52 in absolute value is exact. -/
theorem float64_int (n : Int) (h0 : 0 ≤ n) (h1 : n ≤ 4503599627370496) :
    float64 (n : ℚ) = some (n : ℚ) := by
  unfold float64
  split
  · rename_i hz
    rw [hz]
  · rename_i hne
    simp only
    have hnq : (0 : ℚ) ≤ (n : ℚ) := by exact_mod_cast h0
    have hn1 : (n : ℚ) ≤ 4503599627370496 := by exact_mod_cast h1
    have habs : |(n : ℚ)| ≤ (2 : ℚ) ^ 52 := by
      rw [abs_of_nonneg hnq]
      norm_num
      exact hn1
    have he := exponent_le (n : ℚ) hne 52 habs
    obtain ⟨j, hj⟩ := pow2_small (max (exponent (n : ℚ)) (-1022)) (by
      rw [max_le_iff]
      exact ⟨by exact_mod_cast he, by decide⟩)
    have hj2 : pow2 (max (exponent (n : ℚ)) (-1022) - 52) * (2 : ℚ) ^ j = 1 := by
      have := hj
      push_cast at this
      exact this
    have hq := pow2_pos (max (exponent (n : ℚ)) (-1022) - 52)
    have hdiv : (n : ℚ) / pow2 (max (exponent (n : ℚ)) (-1022) - 52) =
        ((n * (2 ^ j : Nat) : Int) : ℚ) := by
      rw [div_eq_iff (ne_of_gt hq)]
      push_cast
      calc (n : ℚ) = (n : ℚ) * (pow2 (max (exponent (n : ℚ)) (-1022) - 52) * (2 : ℚ) ^ j) := by
            rw [hj2, mul_one]
        _ = (n : ℚ) * (2 : ℚ) ^ j * pow2 (max (exponent (n : ℚ)) (-1022) - 52) := by ring
    have hr : ((roundHalfEven ((n : ℚ) / pow2 (max (exponent (n : ℚ)) (-1022) - 52)) : Int) : ℚ)
        * pow2 (max (exponent (n : ℚ)) (-1022) - 52) = (n : ℚ) := by
      rw [hdiv, roundHalfEven_int]
      push_cast
      calc (n : ℚ) * (2 : ℚ) ^ j * pow2 (max (exponent (n : ℚ)) (-1022) - 52)
          = (n : ℚ) * (pow2 (max (exponent (n : ℚ)) (-1022) - 52) * (2 : ℚ) ^ j) := by ring
        _ = (n : ℚ) := by rw [hj2, mul_one]
    rw [hr]
    have hbig : (4503599627370496 : ℚ) < pow2 1024 := by
      rw [pow2_eq]
      norm_num
    rw [if_pos ⟨by linarith, by linarith⟩]

theorem toInt_Ceil {y : ℚ} {t : Int} (h : toInt (Ceil y) = some t) : t = ⌈y⌉ := by
  unfold toInt Ceil at h
  simp only [Int.floor_intCast, Int.ceil_intCast, ite_self] at h
  split at h
  · exact (Option.some.inj h).symm
  · simp at h

/-- The shrink floor computed for a bucket count that `make` accepts, with a shrink limit
of at most 1, is at most the bucket count. -/
theorem ceilMul_le (n : Int) (f : ℚ) (ms : Int) (h0 : 0 ≤ n) (h1 : 8 * n ≤ maxAlloc)
    (hf : f ≤ 1) (h : ceilMul n f = some ms) : ms ≤ n := by
  have hn : n ≤ 4503599627370496 := by
    unfold maxAlloc at h1
    omega
  unfold ceilMul at h
  rw [float64_int n h0 hn] at h
  simp only at h
  split at h
  · simp at h
  · rename_i y hy
    have hnq : (0 : ℚ) ≤ (n : ℚ) := by exact_mod_cast h0
    have hle : y ≤ (n : ℚ) := float64_le_int _ y n h0 hn (by nlinarith) hy
    rw [toInt_Ceil h]
    exact Int.ceil_le.2 hle

/-- Rounding shows in the results the code computes: 25 * 0.28 is 7.000000000000001,
with ceiling 8; 21 / 0.7 is 30.000000000000004, with ceiling 31; 25 * 1.16 is
28.999999999999996, truncated to 28; 33 / 1.1 is 29.999999999999996, truncated to 29;
2^53 + 1 converts to 2^53; and 2^1024 has no float64 value. -/
theorem float64_examples :
    ceilMul 25 (f64 (28 / 100)) = some 8 ∧ ceilDiv 21 (f64 (7 / 10)) = some 31 ∧
    truncMul 25 (f64 (116 / 100)) = some 28 ∧ truncDiv 33 (f64 (11 / 10)) = some 29 ∧
    float64 ((9007199254740993 : Int) : ℚ) = some 9007199254740992 ∧
    float64 (pow2 1024) = none := by
  decide!

/-! ## Concrete runs -/

theorem testCapacity_trace :
    trace (NewConfig intEq intHash testCfg) (insOps ++ delOps) = some expectedTrace := by
  decide!

theorem fits_testCfg_20 : testCfg.Fits 20 :=
  ⟨25, 7, by decide!, by decide!, by decide, by decide⟩

/-- The map of TestCapacity after Set(i, i) for i = 1..10: it is full (Len 10, Cap 10);
Set(11, 11) grows it to Cap 20, and Set(3, 33) updates the stored key 3. -/
theorem exists_full_map :
    ∃ m : Map Int Int, Reachable intEq intHash testCfg m ∧ m.size = 10 ∧ m.maxSize = 10 ∧
      m.cfg = testCfg ∧ m.GetOK 3 = some (3, true) ∧
      ∃ m1, m.Set 11 11 = some m1 ∧ m1.maxSize = 20 := by
  have h : (run (NewConfig intEq intHash testCfg) (insOps.take 10)).map
      (fun m => decide (m.size = 10 ∧ m.maxSize = 10 ∧ m.cfg = testCfg ∧
        m.GetOK 3 = some (3, true) ∧
        (m.Set 11 11).map (fun m1 => m1.maxSize) = some 20)) = some true := by decide!
  obtain ⟨m, hm, hp⟩ := Option.map_eq_some'.1 h
  obtain ⟨h1, h2, h3, h4, h5⟩ := of_decide_eq_true hp
  obtain ⟨m1, hm1, hcap⟩ := Option.map_eq_some'.1 h5
  exact ⟨m, Reachable.of_run _ Reachable.new hm, h1, h2, h3, h4, m1, hm1, hcap⟩

/-- The map of TestCapacity after Set(i, i) for i = 1..29 and Delete(i) for
i = 29..14: Len 13, Cap 40 and shrink floor 13; Delete(13) shrinks it to Cap 20. -/
theorem exists_shrinking_map :
    ∃ m : Map Int Int, Reachable intEq intHash testCfg m ∧ m.size = 13 ∧ m.maxSize = 40 ∧
      m.minSize = 13 ∧ m.cfg = testCfg ∧ m.GetOK 50 = some (0, false) ∧
      m.GetOK 5 = some (5, true) ∧
      ∃ m1, m.Delete 13 = some m1 ∧ m1.maxSize = 20 ∧ m1.size = 12 := by
  have h : (run (NewConfig intEq intHash testCfg) (insOps ++ delOps.take 16)).map
      (fun m => decide (m.size = 13 ∧ m.maxSize = 40 ∧ m.minSize = 13 ∧ m.cfg = testCfg ∧
        m.GetOK 50 = some (0, false) ∧ m.GetOK 5 = some (5, true) ∧
        (m.Delete 13).map (fun m1 => (m1.maxSize, m1.size)) = some (20, 12))) =
      some true := by decide!
  obtain ⟨m, hm, hp⟩ := Option.map_eq_some'.1 h
  obtain ⟨h1, h2, h3, h4, h5, h7, h6⟩ := of_decide_eq_true hp
  obtain ⟨m1, hm1, hq⟩ := Option.map_eq_some'.1 h6
  exact ⟨m, Reachable.of_run _ Reachable.new hm, h1, h2, h3, h4, h5, h7, m1, hm1,
    congrArg Prod.fst hq, congrArg Prod.snd hq⟩

/-- The map with the default configuration after Set(1, 10) and Set(11, 110): both keys
sit in bucket 1 of the 10 buckets. -/
theorem exists_colliding_map :
    ∃ m : Map Int Int, Reachable intEq intHash defaultConfig m ∧ m.size = 2 ∧
      m.buckets.length = 10 ∧ m.cfg = defaultConfig ∧ m.maxSize = 8 ∧
      m.GetOK 1 = some (10, true) ∧ m.GetOK 11 = some (110, true) ∧
      m.GetOK 21 = some (0, false) ∧ m.GetOK 99 = some (0, false) := by
  have h : (run (NewConfig intEq intHash defaultConfig : Map Int Int)
      [Op.set 1 10, Op.set 11 110]).map
      (fun m => decide (m.size = 2 ∧ m.buckets.length = 10 ∧ m.cfg = defaultConfig ∧
        m.maxSize = 8 ∧ m.GetOK 1 = some (10, true) ∧ m.GetOK 11 = some (110, true) ∧
        m.GetOK 21 = some (0, false) ∧ m.GetOK 99 = some (0, false))) = some true := by
    decide!
  obtain ⟨m, hm, hp⟩ := Option.map_eq_some'.1 h
  exact ⟨m, Reachable.of_run _ Reachable.new hm, of_decide_eq_true hp⟩

/-- A map with room (a size that is neither 0 nor the capacity) lets Set find room. -/
theorem Map.setFits_of_room {m : Map K V} (hz : m.size ≠ 0) (hlt : m.size < m.maxSize) :
    m.SetFits :=
  ⟨fun h => absurd h hz, fun _ h => absurd h (not_le.2 hlt)⟩

/-! ## The claims -/

/-- C1 (round trip). For every map reachable from NewConfig by Set, Delete, SetCap (and
Clone), with a valid configuration and lawful eq and hash, and for every key and value:
whenever Set returns, GetOK of that key afterwards returns the value and true, whichever
path the Set took (update, append, first allocation, growth rehash); and Set does return
when the map already holds the key, or finds room for a new one (`SetFits`: the capacity
it has to install, if any, fits). -/
theorem set_then_getOK [Inhabited V] {eq : K → K → Bool} {hash : K → Nat} {cfg : Config}
    {m : Map K V} (hl : Lawful eq hash) (hc : cfg.Valid) (hr : Reachable eq hash cfg m)
    (key : K) (value : V) :
    (∀ m1, m.Set key value = some m1 → m1.GetOK key = some (value, true)) ∧
    (((∃ v, m.GetOK key = some (v, true)) ∨ m.SetFits) →
      ∃ m1, m.Set key value = some m1) := by
  obtain ⟨hw, hsd, h1, h2, h3⟩ := hr.inv
  have hlm : Lawful m.eq m.hash := by rw [h1, h2]; exact hl
  have hn := hr.nodup hl
  constructor
  · intro m1 hm1
    obtain ⟨hw1, hf, heff, _⟩ := Map.Set_spec hm1 hw
    have hn1 := Map.NoDup.set hlm hw hn hf key value heff
    have hl1 : Lawful m1.eq m1.hash := by rw [hf.1, hf.2.1]; exact hlm
    rcases heff with ⟨e, rest, hm, _, hq⟩ | ⟨_, hq⟩
    · exact Map.GetOK_of_mem m1 key hl1 hw1 hn1 { e with value := value }
        (hq.mem_iff.2 (List.mem_cons_self _ _)) (by rw [hf.1]; exact hm.2)
    · exact Map.GetOK_of_mem m1 key hl1 hw1 hn1 ⟨key, value, m.hash key⟩
        (hq.mem_iff.2 (List.mem_cons_self _ _)) (hl1.refl key)
  · intro h
    apply Map.Set_returns m key value hw hsd
    · rw [h3, hc.initialCap_setDefaults]
      exact hc.initialCap_pos
    · rcases h with hp | hf
      · exact Or.inl ((Map.present_iff m key hlm hw hn).1 hp)
      · exact Or.inr hf

/-- Instance of C1 on the full map of TestCapacity (keys 1..10, Len 10, Cap 10):
Set(11, 11) finds room by growing to Cap 20, a growth rehash, and Set(3, 33) updates a
stored key; both return and GetOK then gives the value set. -/
theorem set_then_getOK_witness :
    Lawful intEq intHash ∧ testCfg.Valid ∧
      ∃ m : Map Int Int, Reachable intEq intHash testCfg m ∧ m.Len = 10 ∧ m.Cap = 10 ∧
        m.SetFits ∧
        (∃ m1, m.Set 11 11 = some m1 ∧ m1.Cap = 20 ∧ m1.GetOK 11 = some (11, true)) ∧
        (∃ m1, m.Set 3 33 = some m1 ∧ m1.GetOK 3 = some (33, true)) := by
  obtain ⟨m, hr, h1, h2, h3, h4, m1, hm1, hcap⟩ := exists_full_map
  have hfits : m.SetFits := by
    refine ⟨fun h => ?_, fun _ _ => ⟨20, ?_, ?_⟩⟩
    · rw [h1] at h
      exact absurd h (by decide)
    · rw [h2, h3]
      decide!
    · rw [h3, h1]
      exact fits_testCfg_20
  have hthm := set_then_getOK Lawful.intEq_intHash testCfg_valid hr
  obtain ⟨m2, hm2⟩ := (hthm 3 33).2 (Or.inl ⟨3, h4⟩)
  obtain ⟨m3, hm3⟩ := (hthm 11 11).2 (Or.inr hfits)
  rw [hm1] at hm3
  exact ⟨Lawful.intEq_intHash, testCfg_valid, m, hr, h1, h2, hfits,
    ⟨m1, hm1, hcap, (hthm 11 11).1 m1 hm1⟩, ⟨m2, hm2, (hthm 3 33).1 m2 hm2⟩⟩

/-- C2 (deletion). For every reachable map (lawful eq and hash) and every key, present
or not: whenever Delete returns, GetOK of that key afterwards returns the zero value and
false, and Get returns the zero value; and Delete does return when the map lacks the
key, or can shrink (`DeleteFits`: the capacity it has to install, if any, fits). -/
theorem delete_then_getOK [Inhabited V] {eq : K → K → Bool} {hash : K → Nat} {cfg : Config}
    {m : Map K V} (hl : Lawful eq hash) (hc : cfg.Valid) (hr : Reachable eq hash cfg m)
    (key : K) :
    (∀ m1, m.Delete key = some m1 →
      m1.GetOK key = some (default, false) ∧ m1.Get key = some default) ∧
    (((∃ v, m.GetOK key = some (v, false)) ∨ m.DeleteFits) →
      ∃ m1, m.Delete key = some m1) := by
  have _ := hc
  obtain ⟨hw, _, h1, h2, _⟩ := hr.inv
  have hlm : Lawful m.eq m.hash := by rw [h1, h2]; exact hl
  have hn := hr.nodup hl
  constructor
  · intro m1 hm1
    obtain ⟨hw1, hf, heff, _⟩ := Map.Delete_spec hm1 hw
    have hg : m1.GetOK key = some (default, false) := by
      apply Map.GetOK_of_absent m1 key hw1
      rcases heff with ⟨e, hm, hp⟩ | ⟨hno, rfl⟩
      · have hpw := hp.pairwise hn (fun h => hlm.eq_false_symm h)
        rw [List.pairwise_cons] at hpw
        intro a ha hma
        rw [hf.1] at hma
        have h3 := hpw.1 a ha
        rw [hlm.trans _ _ _ (hlm.symm _ _ hm.2) hma.2] at h3
        exact Bool.noConfusion h3
      · exact hno
    exact ⟨hg, by simp [Map.Get, hg]⟩
  · intro h
    apply Map.Delete_returns m key hw
    rcases h with ha | hf
    · exact Or.inl ((Map.absent_iff m key hlm hw hn).1 ha)
    · exact Or.inr hf

/-- Instance of C2 on the map of TestCapacity holding the keys 1..13 (Len 13, Cap 40,
shrink floor 13): Delete(13) removes a stored key and shrinks the map to Cap 20, a
shrink rehash, and Delete(50) is given a key that is not stored; both return and GetOK
then reports the key absent. -/
theorem delete_then_getOK_witness :
    Lawful intEq intHash ∧ testCfg.Valid ∧
      ∃ m : Map Int Int, Reachable intEq intHash testCfg m ∧ m.Len = 13 ∧ m.Cap = 40 ∧
        m.DeleteFits ∧
        (∃ m1, m.Delete 13 = some m1 ∧ m1.Cap = 20 ∧ m1.Len = 12 ∧
          m1.GetOK 13 = some (default, false) ∧ m1.Get 13 = some default) ∧
        (∃ m1, m.Delete 50 = some m1 ∧
          m1.GetOK 50 = some (default, false) ∧ m1.Get 50 = some default) := by
  obtain ⟨m, hr, h1, h2, h3, h4, h5, _, m1, hm1, hcap, hlen⟩ := exists_shrinking_map
  have hfits : m.DeleteFits := by
    intro _ _
    refine ⟨20, ?_, Or.inr ?_⟩
    · rw [h2, h4]
      decide!
    · rw [h4, h1]
      exact fits_testCfg_20
  have hthm := delete_then_getOK Lawful.intEq_intHash testCfg_valid hr
  obtain ⟨m2, hm2⟩ := (hthm 50).2 (Or.inl ⟨0, h5⟩)
  obtain ⟨m3, hm3⟩ := (hthm 13).2 (Or.inr hfits)
  exact ⟨Lawful.intEq_intHash, testCfg_valid, m, hr, h1, h2, hfits,
    ⟨m1, hm1, hcap, hlen, (hthm 13).1 m1 hm1⟩, ⟨m2, hm2, (hthm 50).1 m2 hm2⟩⟩

/-- C3 (other keys are untouched). For every reachable map (valid configuration, lawful
eq and hash) and keys `key`, `other` that are not eq-equal, whatever their hashes:
whenever Set or Delete of `key` returns, rehash or not, the result of GetOK of `other`
is the same as before; and Set and Delete do return when the map finds room or holds
the key, respectively can shrink or lacks the key. -/
theorem getOK_other_unchanged [Inhabited V] {eq : K → K → Bool} {hash : K → Nat}
    {cfg : Config} {m : Map K V} (hl : Lawful eq hash) (hc : cfg.Valid)
    (hr : Reachable eq hash cfg m) (key other : K) (value : V)
    (hne : eq key other = false) :
    (∀ m1, m.Set key value = some m1 → m1.GetOK other = m.GetOK other) ∧
    (∀ m1, m.Delete key = some m1 → m1.GetOK other = m.GetOK other) ∧
    (((∃ v, m.GetOK key = some (v, true)) ∨ m.SetFits) →
      ∃ m1, m.Set key value = some m1) ∧
    (((∃ v, m.GetOK key = some (v, false)) ∨ m.DeleteFits) →
      ∃ m1, m.Delete key = some m1) := by
  obtain ⟨hw, hsd, h1, h2, h3⟩ := hr.inv
  have hlm : Lawful m.eq m.hash := by rw [h1, h2]; exact hl
  have hn := hr.nodup hl
  have hne1 : m.eq key other = false := by rw [h1]; exact hne
  -- an entry whose key is eq-equal to `other` does not match `key`
  have hsep : ∀ e : entry K V, m.eq other e.key = true → m.eq key e.key = true → False := by
    intro e ho hk
    rw [hlm.trans _ _ _ hk (hlm.symm _ _ ho)] at hne1
    exact Bool.noConfusion hne1
  refine ⟨?_, ?_, ?_, ?_⟩
  · intro m1 hm1
    obtain ⟨hw1, hf, heff, _⟩ := Map.Set_spec hm1 hw
    have hn1 := Map.NoDup.set hlm hw hn hf key value heff
    refine Map.GetOK_congr m m1 other hlm hw hn hw1 hn1 hf ?_
    intro a ha
    rcases heff with ⟨e, rest, hm, hp, hq⟩ | ⟨_, hq⟩
    · rw [hq.mem_iff, hp.mem_iff, List.mem_cons, List.mem_cons]
      constructor
      · rintro (h | h)
        · subst h
          exact absurd hm.2 (fun h => hsep _ ha h)
        · exact Or.inr h
      · rintro (h | h)
        · subst h
          exact absurd hm.2 (fun h => hsep _ ha h)
        · exact Or.inr h
    · rw [hq.mem_iff, List.mem_cons]
      constructor
      · rintro (h | h)
        · subst h
          exact absurd (hlm.refl key) (fun h => hsep _ ha h)
        · exact h
      · exact fun h => Or.inr h
  · intro m1 hm1
    obtain ⟨hw1, hf, heff, _⟩ := Map.Delete_spec hm1 hw
    have hn1 := Map.NoDup.delete hlm hn hf key heff
    refine Map.GetOK_congr m m1 other hlm hw hn hw1 hn1 hf ?_
    intro a ha
    rcases heff with ⟨e, hm, hp⟩ | ⟨_, rfl⟩
    · rw [hp.mem_iff, List.mem_cons]
      constructor
      · exact fun h => Or.inr h
      · rintro (h | h)
        · subst h
          exact absurd hm.2 (fun h => hsep _ ha h)
        · exact h
    · exact Iff.rfl
  · intro h
    apply Map.Set_returns m key value hw hsd
    · rw [h3, hc.initialCap_setDefaults]
      exact hc.initialCap_pos
    · rcases h with hp | hf
      · exact Or.inl ((Map.present_iff m key hlm hw hn).1 hp)
      · exact Or.inr hf
  · intro h
    apply Map.Delete_returns m key hw
    rcases h with ha | hf
    · exact Or.inl ((Map.absent_iff m key hlm hw hn).1 ha)
    · exact Or.inr hf

/-- Instances of C3. On the map holding the keys 1 and 11 in the same bucket (10
buckets, default configuration), Set(11, 5) updates and Delete(11) removes the stored
key 11, and both leave GetOK(1) = (10, true). On the full map of TestCapacity (keys
1..10), Set(11, 11) triggers a growth rehash and leaves GetOK(3) = (3, true). On the map
of TestCapacity holding the keys 1..13 with Cap 40, Delete(13) triggers a shrink rehash
and leaves GetOK(5) = (5, true). -/
theorem getOK_other_unchanged_witness :
    Lawful intEq intHash ∧ defaultConfig.Valid ∧ testCfg.Valid ∧
      (∃ m : Map Int Int, Reachable intEq intHash defaultConfig m ∧ m.Len = 2 ∧
        m.buckets.length = 10 ∧ intHash 11 % 10 = intHash 1 % 10 ∧ intEq 11 1 = false ∧
        m.GetOK 11 = some (110, true) ∧ m.GetOK 1 = some (10, true) ∧
        (∃ m1, m.Set 11 5 = some m1 ∧ m1.GetOK 1 = some (10, true)) ∧
        (∃ m1, m.Delete 11 = some m1 ∧ m1.GetOK 1 = some (10, true))) ∧
      (∃ m m1 : Map Int Int, Reachable intEq intHash testCfg m ∧ m.Cap = 10 ∧
        m.Set 11 11 = some m1 ∧ m1.Cap = 20 ∧ m1.GetOK 3 = some (3, true)) ∧
      (∃ m m1 : Map Int Int, Reachable intEq intHash testCfg m ∧ m.Cap = 40 ∧
        m.Delete 13 = some m1 ∧ m1.Cap = 20 ∧ m1.GetOK 5 = some (5, true)) := by
  refine ⟨Lawful.intEq_intHash, defaultConfig_valid, testCfg_valid, ?_, ?_, ?_⟩
  · obtain ⟨m, hr, h1, h2, h3, h4, h5, h6, _, _⟩ := exists_colliding_map
    have hfits : m.DeleteFits := by
      intro _ hgt
      rw [h3, h4] at hgt
      exact absurd hgt (by decide)
    obtain ⟨a1, a2, a3, a4⟩ :=
      getOK_other_unchanged Lawful.intEq_intHash defaultConfig_valid hr 11 1 5 (by decide)
    obtain ⟨m1, hm1⟩ := a3 (Or.inl ⟨110, h6⟩)
    obtain ⟨m2, hm2⟩ := a4 (Or.inr hfits)
    exact ⟨m, hr, h1, h2, by decide, by decide, h6, h5,
      ⟨m1, hm1, by rw [a1 m1 hm1]; exact h5⟩, ⟨m2, hm2, by rw [a2 m2 hm2]; exact h5⟩⟩
  · obtain ⟨m, hr, _, h2, _, h4, m1, hm1, hcap⟩ := exists_full_map
    obtain ⟨a1, _⟩ :=
      getOK_other_unchanged Lawful.intEq_intHash testCfg_valid hr 11 3 11 (by decide)
    exact ⟨m, m1, hr, h2, hm1, hcap, by rw [a1 m1 hm1]; exact h4⟩
  · obtain ⟨m, hr, _, h2, _, _, _, h5, m1, hm1, hcap, _⟩ := exists_shrinking_map
    obtain ⟨_, a2, _⟩ :=
      getOK_other_unchanged Lawful.intEq_intHash testCfg_valid hr 13 5 0 (by decide)
    exact ⟨m, m1, hr, h2, hm1, hcap, by rw [a2 m1 hm1]; exact h5⟩

/-- C4 (size consistency). For every reachable map (valid configuration, lawful eq and
hash): whenever Set returns, Len has increased by exactly 1 if GetOK reported the key
absent and is unchanged if it reported the key present; whenever Delete returns, Len
has decreased by exactly 1 if the key was present and is unchanged if it was absent;
Len is the number of pairwise non-eq keys for which GetOK reports true (there is a list
of Len pairwise non-eq keys such that GetOK reports a key present exactly when it is
eq-equal to a key of the list); and Set and Delete do return when the map holds the key
or finds room, respectively lacks the key or can shrink. -/
theorem len_consistent [Inhabited V] {eq : K → K → Bool} {hash : K → Nat} {cfg : Config}
    {m : Map K V} (hl : Lawful eq hash) (hc : cfg.Valid) (hr : Reachable eq hash cfg m) :
    (∀ (key : K) (value : V) (m1 : Map K V), m.Set key value = some m1 →
      ((∃ v, m.GetOK key = some (v, false)) → m1.Len = m.Len + 1) ∧
      ((∃ v, m.GetOK key = some (v, true)) → m1.Len = m.Len)) ∧
    (∀ (key : K) (m1 : Map K V), m.Delete key = some m1 →
      ((∃ v, m.GetOK key = some (v, true)) → m1.Len = m.Len - 1) ∧
      ((∃ v, m.GetOK key = some (v, false)) → m1.Len = m.Len)) ∧
    (∃ ks : List K, ks.Pairwise (fun a b => eq a b = false) ∧ (ks.length : Int) = m.Len ∧
      ∀ key : K, (∃ v, m.GetOK key = some (v, true)) ↔ ∃ k1 ∈ ks, eq key k1 = true) ∧
    (∀ (key : K) (value : V), ((∃ v, m.GetOK key = some (v, true)) ∨ m.SetFits) →
      ∃ m1, m.Set key value = some m1) ∧
    (∀ key : K, ((∃ v, m.GetOK key = some (v, false)) ∨ m.DeleteFits) →
      ∃ m1, m.Delete key = some m1) := by
  obtain ⟨hw, hsd, h1, h2, h3⟩ := hr.inv
  have hlm : Lawful m.eq m.hash := by rw [h1, h2]; exact hl
  have hn := hr.nodup hl
  have hpres := fun key => (Map.present_iff m key hlm hw hn).1
  have habs := fun key => (Map.absent_iff m key hlm hw hn).1
  refine ⟨?_, ?_, ?_, ?_, ?_⟩
  · intro key value m1 hm1
    obtain ⟨hw1, _, heff, _⟩ := Map.Set_spec hm1 hw
    refine ⟨?_, ?_⟩
    · intro ha
      have ha1 := habs key ha
      rcases heff with ⟨e, rest, hm, hp, _⟩ | ⟨_, hq⟩
      · exact absurd hm (ha1 e (hp.mem_iff.2 (List.mem_cons_self _ _)))
      · show m1.size = m.size + 1
        rw [hw1.size_eq, hw.size_eq, hq.length_eq]
        simp
    · intro hp1
      obtain ⟨e0, he0, hk0⟩ := hpres key hp1
      rcases heff with ⟨e, rest, _, hp, hq⟩ | ⟨hno, _⟩
      · show m1.size = m.size
        rw [hw1.size_eq, hw.size_eq, hq.length_eq, hp.length_eq]
        simp
      · exact absurd hk0 (hno e0 he0)
  · intro key m1 hm1
    obtain ⟨hw1, _, heff, _⟩ := Map.Delete_spec hm1 hw
    refine ⟨?_, ?_⟩
    · intro hp1
      obtain ⟨e0, he0, hk0⟩ := hpres key hp1
      rcases heff with ⟨e, _, hp⟩ | ⟨hno, _⟩
      · show m1.size = m.size - 1
        rw [hw1.size_eq, hw.size_eq, hp.length_eq]
        simp
      · exact absurd hk0 (hno e0 he0)
    · intro ha
      have ha1 := habs key ha
      rcases heff with ⟨e, hm, hp⟩ | ⟨_, rfl⟩
      · exact absurd hm (ha1 e (hp.mem_iff.2 (List.mem_cons_self _ _)))
      · rfl
  · refine ⟨m.entries.map (fun e => e.key), ?_, ?_, ?_⟩
    · rw [List.pairwise_map, ← h1]
      exact hn
    · rw [List.length_map]
      exact hw.size_eq.symm
    · intro key
      constructor
      · intro hp1
        obtain ⟨e0, he0, hk0⟩ := hpres key hp1
        exact ⟨e0.key, List.mem_map.2 ⟨e0, he0, rfl⟩, by rw [← h1]; exact hk0.2⟩
      · rintro ⟨k1, hk1, hk⟩
        obtain ⟨e, he, rfl⟩ := List.mem_map.1 hk1
        exact ⟨e.value, Map.GetOK_of_mem m key hlm hw hn e he (by rw [h1]; exact hk)⟩
  · intro key value h
    apply Map.Set_returns m key value hw hsd
    · rw [h3, hc.initialCap_setDefaults]
      exact hc.initialCap_pos
    · rcases h with hp | hf
      · exact Or.inl (hpres key hp)
      · exact Or.inr hf
  · intro key h
    apply Map.Delete_returns m key hw
    rcases h with ha | hf
    · exact Or.inl (habs key ha)
    · exact Or.inr hf

/-- Instance of C4 on the map holding the keys 1 and 11 (Len 2, Cap 8): Set(21, 7) adds
a key and Len becomes 3, Set(1, 7) updates and Len stays 2, Delete(11) removes a key and
Len becomes 1, Delete(99) finds nothing and Len stays 2. -/
theorem len_consistent_witness :
    Lawful intEq intHash ∧ defaultConfig.Valid ∧
      ∃ m : Map Int Int, Reachable intEq intHash defaultConfig m ∧ m.Len = 2 ∧
        (∃ m1, m.Set 21 7 = some m1 ∧ m1.Len = 3) ∧
        (∃ m1, m.Set 1 7 = some m1 ∧ m1.Len = 2) ∧
        (∃ m1, m.Delete 11 = some m1 ∧ m1.Len = 1) ∧
        (∃ m1, m.Delete 99 = some m1 ∧ m1.Len = 2) ∧
        (∃ ks : List Int, ks.Pairwise (fun a b => intEq a b = false) ∧
          (ks.length : Int) = m.Len ∧
          ∀ key : Int, (∃ v, m.GetOK key = some (v, true)) ↔
            ∃ k1 ∈ ks, intEq key k1 = true) := by
  obtain ⟨m, hr, h1, h2, h3, h4, h5, h6, h7, h8⟩ := exists_colliding_map
  have hlen : m.Len = 2 := h1
  have hsf : m.SetFits := Map.setFits_of_room (by rw [h1]; decide) (by rw [h1, h4]; decide)
  have hdf : m.DeleteFits := by
    intro _ hgt
    rw [h3, h4] at hgt
    exact absurd hgt (by decide)
  obtain ⟨a1, a2, a3, a4, a5⟩ :=
    len_consistent Lawful.intEq_intHash defaultConfig_valid hr
  obtain ⟨m1, hm1⟩ := a4 21 7 (Or.inr hsf)
  obtain ⟨m2, hm2⟩ := a4 1 7 (Or.inl ⟨10, h5⟩)
  obtain ⟨m3, hm3⟩ := a5 11 (Or.inr hdf)
  obtain ⟨m4, hm4⟩ := a5 99 (Or.inl ⟨0, h8⟩)
  refine ⟨Lawful.intEq_intHash, defaultConfig_valid, m, hr, hlen,
    ⟨m1, hm1, ?_⟩, ⟨m2, hm2, ?_⟩, ⟨m3, hm3, ?_⟩, ⟨m4, hm4, ?_⟩, a3⟩
  · rw [(a1 21 7 m1 hm1).1 ⟨0, h7⟩, hlen]
    rfl
  · rw [(a1 1 7 m2 hm2).2 ⟨10, h5⟩, hlen]
  · rw [(a2 11 m3 hm3).1 ⟨110, h6⟩, hlen]
    rfl
  · rw [(a2 99 m4 hm4).2 ⟨0, h8⟩, hlen]

/-- C5 (capacity trajectory of TestCapacity). With the configuration {10, 0.8, 0.25, 2},
eq = (==) and hash(i) = uint32(i): the new map has Len 0 and Cap 0; the run of Set(i, i)
for i = 1..29 followed by Delete(i) for i = 29..1 returns at every step; after Set(i, i)
Len = i and Cap = 10 for i <= 10, 20 for 11 <= i <= 20, 40 for 21 <= i; after Delete(i)
Len = i - 1 and Cap = 40 for i > 13, 20 for 7 < i <= 13, 10 for i <= 7. -/
theorem testCapacity_trajectory :
    (NewConfig intEq intHash testCfg : Map Int Int).Len = 0 ∧
    (NewConfig intEq intHash testCfg : Map Int Int).Cap = 0 ∧
    ∃ t, trace (NewConfig intEq intHash testCfg) (insOps ++ delOps) = some t ∧
      (∀ i : Nat, 1 ≤ i → i ≤ 29 →
        insOps[i - 1]? = some (Op.set (i : Int) (i : Int)) ∧
        t[i - 1]? = some ((i : Int), if i ≤ 10 then 10 else if i ≤ 20 then 20 else 40)) ∧
      (∀ i : Nat, 1 ≤ i → i ≤ 29 →
        delOps[29 - i]? = some (Op.delete (i : Int)) ∧
        t[29 + (29 - i)]? =
          some ((i : Int) - 1, if 13 < i then 40 else if 7 < i then 20 else 10)) := by
  refine ⟨rfl, rfl, expectedTrace, testCapacity_trace, ?_, ?_⟩
  · intro i h1 h2
    interval_cases i <;> exact ⟨rfl, rfl⟩
  · intro i h1 h2
    interval_cases i <;> exact ⟨rfl, rfl⟩

/-- C6, as stated, fails: in the TestCapacity scenario the state reached after
Delete(29), ..., Delete(14) has Len 13, which lies in the stated range 7 < Len <= 13,
and Cap 40, not 20. -/
theorem len13_cap40_counterexample :
    ∃ m, run (NewConfig intEq intHash testCfg) (insOps ++ delOps.take 16) = some m ∧
      (7 < m.Len ∧ m.Len ≤ 13) ∧ m.Cap ≠ 20 := by
  have h : (run (NewConfig intEq intHash testCfg) (insOps ++ delOps.take 16)).map
      (fun m => (m.Len, m.Cap)) = some (13, 40) := by decide!
  obtain ⟨m, hm, hlc⟩ := Option.map_eq_some'.1 h
  have h1 : m.Len = 13 := congrArg Prod.fst hlc
  have h2 : m.Cap = 40 := congrArg Prod.snd hlc
  refine ⟨m, hm, ?_, ?_⟩
  · rw [h1]; decide
  · rw [h2]; decide

/-- C6, amended. In the TestCapacity scenario (keys 1..29 inserted, then deleted from 29
down to 1), in each of the 29 states reached after a Delete, with Len and Cap read in
that state: Cap = 40 while Len >= 13, Cap = 20 while 7 <= Len <= 12, and Cap = 10 while
Len <= 6. -/
theorem shrink_thresholds_by_len :
    ∃ t, trace (NewConfig intEq intHash testCfg) (insOps ++ delOps) = some t ∧
      (t.drop 29).length = 29 ∧
      ∀ p ∈ t.drop 29, (13 ≤ p.1 → p.2 = 40) ∧ (7 ≤ p.1 ∧ p.1 ≤ 12 → p.2 = 20) ∧
        (p.1 ≤ 6 → p.2 = 10) := by
  refine ⟨expectedTrace, testCapacity_trace, by decide, by decide⟩

/-- The map of TestCapacity after Set(i, i) for i = 1..29: Len 29, Cap 40, 50 buckets. -/
theorem exists_big_map :
    ∃ m : Map Int Int, run (NewConfig intEq intHash testCfg) insOps = some m ∧
      Reachable intEq intHash testCfg m ∧ m.size = 29 ∧ m.maxSize = 40 ∧
      m.cfg = testCfg ∧ m.buckets.length = 50 ∧ m.GetOK 7 = some (7, true) ∧
      m.buckets.flatten ≠ [] := by
  have h : (run (NewConfig intEq intHash testCfg) insOps).map
      (fun m => decide (m.size = 29 ∧ m.maxSize = 40 ∧ m.cfg = testCfg ∧
        m.buckets.length = 50 ∧ m.GetOK 7 = some (7, true) ∧
        m.buckets.flatten.length ≠ 0)) = some true := by decide!
  obtain ⟨m, hm, hp⟩ := Option.map_eq_some'.1 h
  obtain ⟨h1, h2, h3, h4, h5, h6⟩ := of_decide_eq_true hp
  refine ⟨m, hm, Reachable.of_run _ Reachable.new hm, h1, h2, h3, h4, h5, ?_⟩
  intro h7
  rw [h7] at h6
  exact h6 rfl

theorem fits_testCfg_29 : testCfg.Fits 29 :=
  ⟨37, 10, by decide!, by decide!, by decide, by decide⟩

theorem fits_testCfg_100 : testCfg.Fits 100 :=
  ⟨125, 32, by decide!, by decide!, by decide, by decide⟩

/-- C7 (SetCap result). For every reachable map, whatever its configuration, and every
integer capacity, zero and negative values included: whenever SetCap returns, Len is
unchanged and Cap = max(capacity, Len); and SetCap does return when max(capacity, Len)
is the current capacity or fits. -/
theorem setCap_cap {eq : K → K → Bool} {hash : K → Nat} {cfg : Config} {m : Map K V}
    (hr : Reachable eq hash cfg m) (capacity : Int) :
    (∀ m1, m.SetCap capacity = some m1 →
      m1.Len = m.Len ∧ m1.Cap = max capacity m1.Len) ∧
    ((max capacity m.Len = m.Cap ∨ m.cfg.Fits (max capacity m.Len)) →
      ∃ m1, m.SetCap capacity = some m1) := by
  obtain ⟨hw, _⟩ := hr.inv
  constructor
  · intro m1 hm1
    obtain ⟨_, _, hsize, hmax, _⟩ := Map.SetCap_spec hm1 hw.shape hw.size_eq
    refine ⟨hsize, ?_⟩
    show m1.maxSize = max capacity m1.size
    rw [hmax, hsize]
  · exact Map.SetCap_returns_of_fits m capacity

/-- Instance of C7 on the map of TestCapacity holding the keys 1..29 (Len 29, Cap 40):
SetCap(-3) returns with Cap 29, the number of entries; SetCap(100) returns with Cap 100;
SetCap(40) returns with Cap 40. -/
theorem setCap_cap_witness :
    ∃ m : Map Int Int, Reachable intEq intHash testCfg m ∧ m.Len = 29 ∧ m.Cap = 40 ∧
      (∃ m1, m.SetCap (-3) = some m1 ∧ m1.Len = 29 ∧ m1.Cap = 29) ∧
      (∃ m1, m.SetCap 100 = some m1 ∧ m1.Len = 29 ∧ m1.Cap = 100) ∧
      (∃ m1, m.SetCap 40 = some m1 ∧ m1.Len = 29 ∧ m1.Cap = 40) := by
  obtain ⟨m, _, hr, h1, h2, h3, _⟩ := exists_big_map
  have hlen : m.Len = 29 := h1
  have hcap : m.Cap = 40 := h2
  obtain ⟨m1, hm1⟩ := (setCap_cap hr (-3)).2 (Or.inr (by
    rw [h3, hlen]
    exact fits_testCfg_29))
  obtain ⟨m2, hm2⟩ := (setCap_cap hr 100).2 (Or.inr (by
    rw [h3, hlen]
    exact fits_testCfg_100))
  obtain ⟨m3, hm3⟩ := (setCap_cap hr 40).2 (Or.inl (by rw [hlen, hcap]; rfl))
  obtain ⟨a1, a2⟩ := (setCap_cap hr (-3)).1 m1 hm1
  obtain ⟨b1, b2⟩ := (setCap_cap hr 100).1 m2 hm2
  obtain ⟨c1, c2⟩ := (setCap_cap hr 40).1 m3 hm3
  rw [hlen] at a1 b1 c1
  rw [a1] at a2
  rw [b1] at b2
  rw [c1] at c2
  exact ⟨m, hr, hlen, hcap, ⟨m1, hm1, a1, a2⟩, ⟨m2, hm2, b1, b2⟩, ⟨m3, hm3, c1, c2⟩⟩

/-- C8 (SetCap preserves the contents). For every reachable map (valid configuration,
lawful eq and hash) and every integer capacity: whenever SetCap returns, Len and the
result of GetOK for every key are unchanged, the entries are a rearrangement of the
entries before (none lost, duplicated or altered), and every entry sits in the bucket
that its cached hash selects in the new bucket slice (`hashToBucketIdx`), which is its
cached hash modulo the new bucket count when that count is below 2^32; and SetCap does
return when max(capacity, Len) is the current capacity or fits. -/
theorem setCap_preserves [Inhabited V] {eq : K → K → Bool} {hash : K → Nat} {cfg : Config}
    {m : Map K V} (hl : Lawful eq hash) (hc : cfg.Valid) (hr : Reachable eq hash cfg m)
    (capacity : Int) :
    (∀ m1, m.SetCap capacity = some m1 →
      m1.Len = m.Len ∧
      (∀ key : K, m1.GetOK key = m.GetOK key) ∧
      m1.buckets.flatten.Perm m.buckets.flatten ∧
      (∀ (i : Nat) (chain : List (entry K V)), m1.buckets[i]? = some chain →
        ∀ e ∈ chain, m1.hashToBucketIdx e.hash = some i ∧
          (m1.buckets.length < 4294967296 → e.hash % m1.buckets.length = i))) ∧
    ((max capacity m.Len = m.Cap ∨ m.cfg.Fits (max capacity m.Len)) →
      ∃ m1, m.SetCap capacity = some m1) := by
  have _ := hc
  obtain ⟨hw, _, h1, h2, _⟩ := hr.inv
  have hlm : Lawful m.eq m.hash := by rw [h1, h2]; exact hl
  have hn := hr.nodup hl
  constructor
  · intro m1 hm1
    obtain ⟨hw1, hf, hsize, _, hp, _⟩ := Map.SetCap_spec hm1 hw.shape hw.size_eq
    have hn1 := Map.NoDup.of_perm hlm hn hf.1 hp
    refine ⟨hsize,
      fun key => Map.GetOK_congr m m1 key hlm hw hn hw1 hn1 hf (fun _ _ => hp.mem_iff),
      hp, ?_⟩
    intro i chain hi e he
    obtain ⟨hne, hidx⟩ := hw1.shape.placed i chain hi e he
    refine ⟨by rw [Map.hashToBucketIdx_of_ne _ hne, hidx], fun hlt => ?_⟩
    rw [Nat.mod_eq_of_lt hlt] at hidx
    exact hidx
  · exact Map.SetCap_returns_of_fits m capacity

/-- Instance of C8 on the map of TestCapacity holding the keys 1..29 in 50 buckets:
SetCap(100) returns a map of 125 buckets with the same Len, the same GetOK results (key
7 is still found with its value), a rearrangement of the same entries, each in the
bucket its cached hash selects. -/
theorem setCap_preserves_witness :
    Lawful intEq intHash ∧ testCfg.Valid ∧
      ∃ m : Map Int Int, Reachable intEq intHash testCfg m ∧ m.Len = 29 ∧
        m.buckets.length = 50 ∧
        ∃ m1, m.SetCap 100 = some m1 ∧ m1.buckets.length = 125 ∧ m1.Len = 29 ∧
          m1.GetOK 7 = some (7, true) ∧
          (∀ key : Int, m1.GetOK key = m.GetOK key) ∧
          m1.buckets.flatten.Perm m.buckets.flatten ∧
          (∀ (i : Nat) (chain : List (entry Int Int)), m1.buckets[i]? = some chain →
            ∀ e ∈ chain, m1.hashToBucketIdx e.hash = some i ∧
              (m1.buckets.length < 4294967296 → e.hash % m1.buckets.length = i)) := by
  obtain ⟨m, _, hr, h1, h2, h3, h4, h5, _⟩ := exists_big_map
  have hlen : m.Len = 29 := h1
  have hthm := setCap_preserves Lawful.intEq_intHash testCfg_valid hr 100
  obtain ⟨m1, hm1⟩ := hthm.2 (Or.inr (by
    rw [h3, hlen]
    exact fits_testCfg_100))
  obtain ⟨a1, a2, a3, a4⟩ := hthm.1 m1 hm1
  have hb : ((m1.buckets.length : Nat) : Int) = 125 :=
    Map.SetCap_length hm1 (by rw [h1, h2]; decide) (by
      rw [h1, h3]
      decide!)
  exact ⟨Lawful.intEq_intHash, testCfg_valid, m, hr, hlen, h4, m1, hm1, by exact_mod_cast hb,
    by rw [a1, hlen], by rw [a2 7, h5], a2, a3, a4⟩

/-- C9, evaluated on the code. On a new map with the default configuration,
SetCap(100) returns a map with Len 0 and Cap 100 (so Len < Cap); the first Set on it
then returns a map with Cap 8, the initial capacity: Set applies the initial capacity
because the size is 0, although the capacity is not 0. -/
theorem set_resets_capacity_of_empty_map :
    ((New intEq intHash : Map Int Int).SetCap 100).map (fun m => (m.Len, m.Cap))
      = some (0, 100) ∧
    (((New intEq intHash : Map Int Int).SetCap 100).bind (fun m => m.Set 1 1)).map
      (fun m => (m.Len, m.Cap)) = some (1, 8) := by
  constructor <;> decide!

/-- Along a run of Set and Delete, the capacity stays at or above the initial capacity
once it has reached it, and a Set takes it there. -/
theorem run_cap_ge (ops : List (Op K V)) {m m1 : Map K V} (h : run m ops = some m1)
    (hw : m.WF) (h0 : m.size ≠ 0 → m.cfg.InitialCap ≤ m.maxSize) :
    m1.cfg = m.cfg ∧
      ((m.cfg.InitialCap ≤ m.maxSize ∨ ∃ key value, Op.set key value ∈ ops) →
        m.cfg.InitialCap ≤ m1.maxSize) := by
  induction ops generalizing m with
  | nil =>
    cases h
    refine ⟨rfl, ?_⟩
    rintro (h | ⟨_, _, h⟩)
    · exact h
    · simp at h
  | cons op rest ih =>
    unfold run at h
    split at h
    · simp at h
    · rename_i m2 hstep
      cases op with
      | set key value =>
        obtain ⟨hw2, hf, _, _, hcap⟩ := Map.Set_spec hstep hw
        have hge := hcap h0
        rw [← hf.2.2] at hge
        obtain ⟨hcfg, hcap2⟩ := ih h hw2 (fun _ => hge)
        refine ⟨hcfg.trans hf.2.2, fun _ => ?_⟩
        rw [← hf.2.2]
        exact hcap2 (Or.inl hge)
      | delete key =>
        obtain ⟨hw2, hf, heff, _, hcap⟩ := Map.Delete_spec hstep hw
        have h1 : m2.size ≠ 0 → m2.cfg.InitialCap ≤ m2.maxSize := by
          intro hz
          rw [hf.2.2]
          apply hcap
          apply h0
          rcases heff with ⟨e, _, hp⟩ | ⟨_, rfl⟩
          · have := hw.size_eq
            have := hp.length_eq
            simp only [List.length_cons] at this
            omega
          · exact hz
        obtain ⟨hcfg, hcap2⟩ := ih h hw2 h1
        refine ⟨hcfg.trans hf.2.2, ?_⟩
        intro h
        rw [← hf.2.2]
        apply hcap2
        rcases h with h | ⟨k, v, h⟩
        · left
          rw [hf.2.2]
          exact hcap h
        · right
          refine ⟨k, v, ?_⟩
          simpa using h

/-- C10 (automatic resizing never goes below the initial capacity). For every valid
configuration and every list of Set and Delete operations applied in turn to a newly
constructed map: in the state the run reaches, if the list contains a Set (so the state
lies after the first Set), Cap >= InitialCap. -/
theorem cap_ge_initialCap (eq : K → K → Bool) (hash : K → Nat) (cfg : Config)
    (hc : cfg.Valid) (ops : List (Op K V)) (m : Map K V)
    (hrun : run (NewConfig eq hash cfg) ops = some m)
    (hset : ∃ key value, Op.set key value ∈ ops) : cfg.InitialCap ≤ m.Cap := by
  obtain ⟨_, hcap⟩ := run_cap_ge ops hrun (NewConfig_WF eq hash cfg).1 (fun h => absurd rfl h)
  have := hcap (Or.inr hset)
  rw [← hc.initialCap_setDefaults]
  exact this

theorem set_mem_insOps (rest : List (Op Int Int)) : Op.set 1 1 ∈ insOps ++ rest :=
  List.mem_append_left _ (List.mem_map.2 ⟨0, by decide, rfl⟩)

/-- Instance of C10 on the run of TestCapacity (29 Sets that grow the map from Cap 10 to
Cap 40, then 29 Deletes that shrink it): the run returns a map with Len 0 and Cap 10,
the initial capacity; and on the run cut after Delete(14), with Cap 40. -/
theorem cap_ge_initialCap_witness :
    testCfg.Valid ∧
      (∃ m : Map Int Int, run (NewConfig intEq intHash testCfg) (insOps ++ delOps) = some m ∧
        m.Len = 0 ∧ m.Cap = 10 ∧ testCfg.InitialCap ≤ m.Cap) ∧
      (∃ m : Map Int Int,
        run (NewConfig intEq intHash testCfg) (insOps ++ delOps.take 16) = some m ∧
        m.Cap = 40 ∧ testCfg.InitialCap ≤ m.Cap) := by
  have h : (run (NewConfig intEq intHash testCfg) (insOps ++ delOps)).map
      (fun m => (m.Len, m.Cap)) = some (0, 10) := by decide!
  obtain ⟨m, hm, hp⟩ := Option.map_eq_some'.1 h
  have h2 : (run (NewConfig intEq intHash testCfg) (insOps ++ delOps.take 16)).map
      (fun m => m.Cap) = some 40 := by decide!
  obtain ⟨m2, hm2, hp2⟩ := Option.map_eq_some'.1 h2
  exact ⟨testCfg_valid,
    ⟨m, hm, congrArg Prod.fst hp, congrArg Prod.snd hp,
      cap_ge_initialCap intEq intHash testCfg testCfg_valid _ m hm ⟨1, 1, set_mem_insOps _⟩⟩,
    ⟨m2, hm2, hp2,
      cap_ge_initialCap intEq intHash testCfg testCfg_valid _ m2 hm2
        ⟨1, 1, set_mem_insOps _⟩⟩⟩

/-! ## What a returning call leaves in the scalar fields -/

/-- A returning SetCap keeps the configuration and the size and sets the capacity to
max(capacity, size), on every map. -/
theorem Map.SetCap_scalars {m m1 : Map K V} {capacity : Int}
    (h : m.SetCap capacity = some m1) :
    m1.cfg = m.cfg ∧ m1.size = m.size ∧ m1.maxSize = max capacity m.size := by
  unfold Map.SetCap at h
  simp only [max_of_ite] at h
  split at h
  · rename_i heq
    cases h
    exact ⟨rfl, rfl, heq.symm⟩
  · split at h
    · simp at h
    · split at h
      · simp at h
      · have hr := Map.rehash_spec h
        exact ⟨hr.cfg_eq, hr.size_eq, hr.maxSize_eq⟩

/-- When changeSize(1) returns and the new size exceeds the capacity, the new capacity
is max(int(float64(maxSize) * ChangeFactor), new size). -/
theorem Map.changeSize_grow {m m1 : Map K V} {newSize : Int} (h : m.changeSize 1 = some m1)
    (hgt : m.size + 1 > m.maxSize)
    (htr : truncMul m.maxSize m.cfg.ChangeFactor = some newSize) :
    m1.maxSize = max newSize (m.size + 1) ∧ m1.size = m.size + 1 := by
  unfold Map.changeSize at h
  simp only [gt_iff_lt, zero_lt_one, if_true] at h
  rw [if_pos hgt] at h
  simp only [htr] at h
  obtain ⟨_, h2, h3⟩ := Map.SetCap_scalars h
  exact ⟨h3, h2⟩

/-! ## Range -/

theorem Map.rangeChain_all_true {σ : Type} (f : σ → K → V → Bool × σ)
    (hf : ∀ s k v, (f s k v).1 = true) (s : σ) (chain : List (entry K V)) :
    (Map.rangeChain f s chain).1 = chain.map (fun e => (e.key, e.value, true)) ∧
      (Map.rangeChain f s chain).2.2 = true := by
  induction chain generalizing s with
  | nil => exact ⟨rfl, rfl⟩
  | cons e next ih =>
    obtain ⟨h1, h2⟩ := ih (f s e.key e.value).2
    simp [Map.rangeChain, hf, h1, h2]

theorem Map.rangeBuckets_all_true {σ : Type} (f : σ → K → V → Bool × σ)
    (hf : ∀ s k v, (f s k v).1 = true) (s : σ) (buckets : List (List (entry K V))) :
    (Map.rangeBuckets f s buckets).1 = buckets.flatten.map (fun e => (e.key, e.value, true)) := by
  induction buckets generalizing s with
  | nil => rfl
  | cons c rest ih =>
    obtain ⟨h1, h2⟩ := Map.rangeChain_all_true f hf s c
    simp [Map.rangeBuckets, h1, h2, ih]

theorem Map.rangeChain_cons_true {σ : Type} (f : σ → K → V → Bool × σ) (s : σ)
    (e : entry K V) (next : List (entry K V)) (hr : ¬ (f s e.key e.value).1 = false) :
    Map.rangeChain f s (e :: next) =
      ((e.key, e.value, true) :: (Map.rangeChain f (f s e.key e.value).2 next).1,
        (Map.rangeChain f (f s e.key e.value).2 next).2.1,
        (Map.rangeChain f (f s e.key e.value).2 next).2.2) := by
  simp [Map.rangeChain, hr]

/-- The calls of the inner loop: all answered true when the loop goes on; otherwise the
last one answered false and all before it true. -/
theorem Map.rangeChain_calls {σ : Type} (f : σ → K → V → Bool × σ) (s : σ)
    (chain : List (entry K V)) :
    ((Map.rangeChain f s chain).2.2 = true ∧
        ∀ c ∈ (Map.rangeChain f s chain).1, c.2.2 = true) ∨
    ((Map.rangeChain f s chain).2.2 = false ∧
        ∃ (init : List (K × V × Bool)) (last : K × V × Bool),
          (Map.rangeChain f s chain).1 = init ++ [last] ∧
          (∀ c ∈ init, c.2.2 = true) ∧ last.2.2 = false) := by
  induction chain generalizing s with
  | nil => left; simp [Map.rangeChain]
  | cons e next ih =>
    by_cases hr : (f s e.key e.value).1 = false
    · right
      refine ⟨by simp [Map.rangeChain, hr], [], (e.key, e.value, false), ?_, by simp, rfl⟩
      simp [Map.rangeChain, hr]
    · rw [Map.rangeChain_cons_true f s e next hr]
      rcases ih (f s e.key e.value).2 with ⟨h1, h2⟩ | ⟨h1, init, last, h2, h3, h4⟩
      · left
        refine ⟨h1, ?_⟩
        intro c hc
        rcases List.mem_cons.1 hc with hc | hc
        · rw [hc]
        · exact h2 c hc
      · right
        refine ⟨h1, (e.key, e.value, true) :: init, last, ?_, ?_, h4⟩
        · show _ :: _ = _
          rw [h2]
          rfl
        · intro c hc
          rcases List.mem_cons.1 hc with rfl | hc
          · rfl
          · exact h3 c hc

theorem Map.rangeBuckets_calls {σ : Type} (f : σ → K → V → Bool × σ) (s : σ)
    (buckets : List (List (entry K V))) :
    (∀ c ∈ (Map.rangeBuckets f s buckets).1, c.2.2 = true) ∨
    (∃ (init : List (K × V × Bool)) (last : K × V × Bool),
        (Map.rangeBuckets f s buckets).1 = init ++ [last] ∧
        (∀ c ∈ init, c.2.2 = true) ∧ last.2.2 = false) := by
  induction buckets generalizing s with
  | nil => left; simp [Map.rangeBuckets]
  | cons b rest ih =>
    rcases Map.rangeChain_calls f s b with ⟨h1, h2⟩ | ⟨h1, init, last, h2, h3, h4⟩
    · rcases ih (Map.rangeChain f s b).2.1 with h5 | ⟨init, last, h5, h6, h7⟩
      · left
        intro c hc
        simp only [Map.rangeBuckets, h1, Bool.true_eq_false, if_false, List.mem_append] at hc
        rcases hc with hc | hc
        · exact h2 c hc
        · exact h5 c hc
      · right
        refine ⟨(Map.rangeChain f s b).1 ++ init, last, ?_, ?_, h7⟩
        · simp [Map.rangeBuckets, h1, h5]
        · intro c hc
          rcases List.mem_append.1 hc with hc | hc
          · exact h2 c hc
          · exact h6 c hc
    · right
      exact ⟨init, last, by simp [Map.rangeBuckets, h1, h2], h3, h4⟩

theorem Map.rangeChain_first_false {σ : Type} (f : σ → K → V → Bool × σ) (s : σ)
    (hf : ∀ k v, (f s k v).1 = false) (chain : List (entry K V)) (hne : chain ≠ []) :
    (Map.rangeChain f s chain).1.length = 1 ∧ (Map.rangeChain f s chain).2.2 = false := by
  cases chain with
  | nil => exact absurd rfl hne
  | cons e next => simp [Map.rangeChain, hf]

theorem Map.rangeBuckets_first_false {σ : Type} (f : σ → K → V → Bool × σ) (s : σ)
    (hf : ∀ k v, (f s k v).1 = false) (buckets : List (List (entry K V)))
    (hne : buckets.flatten ≠ []) :
    (Map.rangeBuckets f s buckets).1.length = 1 := by
  induction buckets with
  | nil => simp at hne
  | cons b rest ih =>
    by_cases hb : b = []
    · subst hb
      have hrest : rest.flatten ≠ [] := by simpa using hne
      simpa [Map.rangeBuckets, Map.rangeChain] using ih hrest
    · obtain ⟨h1, h2⟩ := Map.rangeChain_first_false f s hf b hb
      simp [Map.rangeBuckets, h1, h2]

theorem filter_length_le_one {α : Type} (R : α → α → Prop) (p : α → Bool) (l : List α)
    (hp : l.Pairwise R) (hR : ∀ a b, p a = true → p b = true → ¬ R a b) :
    (l.filter p).length ≤ 1 := by
  induction l with
  | nil => simp
  | cons x xs ih =>
    rw [List.pairwise_cons] at hp
    by_cases hx : p x = true
    · have hnone : xs.filter p = [] := by
        rw [List.filter_eq_nil_iff]
        intro a ha hpa
        exact hR x a hx hpa (hp.1 a ha)
      simp [List.filter_cons, hx, hnone]
    · simpa [List.filter_cons, hx] using ih hp.2

/-! ## The claims, continued -/

theorem slowCfg_valid : slowCfg.Valid := by
  have h : slowCfg = ⟨1, 3602879701896397 / 4503599627370496, 1 / 4, 3 / 2⟩ := by decide!
  rw [h]
  constructor <;> norm_num

/-- C11 (capacity covers occupancy). For every valid configuration and every reachable
map: Len <= Cap, and whenever Set, Delete or SetCap (any integer argument) returns, and
after Clone, Len <= Cap in the map returned; in particular the growth of changeSize is
clamped: when the new size exceeds the capacity and int(Cap * ChangeFactor) is still
smaller than the new size, the new capacity is the new size. -/
theorem len_le_cap {eq : K → K → Bool} {hash : K → Nat} {cfg : Config} {m : Map K V}
    (hc : cfg.Valid) (hr : Reachable eq hash cfg m) :
    m.Len ≤ m.Cap ∧
    (∀ (key : K) (value : V) (m1 : Map K V), m.Set key value = some m1 → m1.Len ≤ m1.Cap) ∧
    (∀ (key : K) (m1 : Map K V), m.Delete key = some m1 → m1.Len ≤ m1.Cap) ∧
    (∀ (capacity : Int) (m1 : Map K V), m.SetCap capacity = some m1 → m1.Len ≤ m1.Cap) ∧
    m.Clone.Len ≤ m.Clone.Cap ∧
    (∀ (m0 m1 : Map K V) (newSize : Int), m0.changeSize 1 = some m1 →
      m0.Cap < m0.Len + 1 → truncMul m0.Cap m0.cfg.ChangeFactor = some newSize →
      newSize < m0.Len + 1 → m1.Len = m0.Len + 1 ∧ m1.Cap = m1.Len) := by
  have _ := hc
  obtain ⟨hw, _⟩ := hr.inv
  refine ⟨hw.size_le, ?_, ?_, ?_, ?_, ?_⟩
  · intro key value m1 hm1
    exact (Map.Set_spec hm1 hw).1.size_le
  · intro key m1 hm1
    exact (Map.Delete_spec hm1 hw).1.size_le
  · intro capacity m1 hm1
    exact (Map.SetCap_spec hm1 hw.shape hw.size_eq).1.size_le
  · rw [Map.Clone_eq]
    exact hw.size_le
  · intro m0 m1 newSize hm1 hgt htr hlt
    obtain ⟨hmax, hsize⟩ := Map.changeSize_grow hm1 hgt htr
    refine ⟨hsize, ?_⟩
    show m1.maxSize = m1.size
    rw [hmax, hsize]
    exact max_eq_right (le_of_lt hlt)

/-- Instance of C11 for the configuration {1, 0.8, 0.25, 1.5}: the map holding the key 1
has Len 1 and Cap 1; Set(2, 2) grows it, int(1 * 1.5) = 1 is smaller than the new size
2, and the map returned has Len 2 and Cap 2; SetCap(0) and Delete(1) return maps with
Len <= Cap; changeSize(1) on the map clamps the new capacity to the new size 2. -/
theorem len_le_cap_witness :
    slowCfg.Valid ∧
      ∃ m m1 m2 m3 m4 : Map Int Int, Reachable intEq intHash slowCfg m ∧
        m.Len = 1 ∧ m.Cap = 1 ∧ truncMul m.Cap m.cfg.ChangeFactor = some 1 ∧
        m.Set 2 2 = some m1 ∧ m1.Len = 2 ∧ m1.Cap = 2 ∧ m1.Len ≤ m1.Cap ∧
        m.SetCap 0 = some m2 ∧ m2.Len ≤ m2.Cap ∧
        m.Delete 1 = some m3 ∧ m3.Len ≤ m3.Cap ∧
        m.changeSize 1 = some m4 ∧ m4.Len = m.Len + 1 ∧ m4.Cap = m4.Len ∧
        m.Len ≤ m.Cap ∧ m.Clone.Len ≤ m.Clone.Cap := by
  have h : ((NewConfig intEq intHash slowCfg : Map Int Int).Set 1 1).map
      (fun m => decide (m.size = 1 ∧ m.maxSize = 1 ∧
        truncMul m.maxSize m.cfg.ChangeFactor = some 1 ∧
        (m.Set 2 2).map (fun m1 => (m1.size, m1.maxSize)) = some (2, 2) ∧
        (m.SetCap 0).isSome = true ∧ (m.Delete 1).isSome = true ∧
        (m.changeSize 1).isSome = true)) = some true := by decide!
  obtain ⟨m, hm, hp⟩ := Option.map_eq_some'.1 h
  obtain ⟨h1, h2, h3, h4, h5, h6, h7⟩ := of_decide_eq_true hp
  obtain ⟨m1, hm1, hq⟩ := Option.map_eq_some'.1 h4
  obtain ⟨m2, hm2⟩ := Option.isSome_iff_exists.1 h5
  obtain ⟨m3, hm3⟩ := Option.isSome_iff_exists.1 h6
  obtain ⟨m4, hm4⟩ := Option.isSome_iff_exists.1 h7
  have hr : Reachable intEq intHash slowCfg m := Reachable.set 1 1 Reachable.new hm
  have hlen : m.Len = 1 := h1
  have hcap : m.Cap = 1 := h2
  obtain ⟨a1, a2, a3, a4, a5, a6⟩ := len_le_cap slowCfg_valid hr
  obtain ⟨b1, b2⟩ := a6 m m4 1 hm4 (by rw [hcap, hlen]; decide) h3 (by rw [hlen]; decide)
  exact ⟨slowCfg_valid, m, m1, m2, m3, m4, hr, hlen, hcap, h3, hm1, congrArg Prod.fst hq,
    congrArg Prod.snd hq, a2 2 2 m1 hm1, hm2, a4 0 m2 hm2, hm3, a3 1 m3 hm3, hm4, b1, b2,
    a1, a5⟩

/-- C12 (Clone holds the same entries and capacity). For every map m, the clone has the
same Len and Cap, the same bucket chains with the same entries in the same order, the
same GetOK result for every key, and Range over the clone makes the same calls in the
same order as Range over m, for every visitor. -/
theorem clone_same [Inhabited V] (m : Map K V) :
    m.Clone.Len = m.Len ∧ m.Clone.Cap = m.Cap ∧ m.Clone.buckets = m.buckets ∧
    (∀ key : K, m.Clone.GetOK key = m.GetOK key) ∧
    (∀ (σ : Type) (f : σ → K → V → Bool × σ) (s : σ), m.Clone.Range f s = m.Range f s) := by
  rw [Map.Clone_eq]
  exact ⟨rfl, rfl, rfl, fun _ => rfl, fun _ _ _ => rfl⟩

/-- C14 (Range visits every entry exactly once). For every reachable map (valid
configuration, lawful eq and hash) and every visitor that always returns true: Range
calls the visitor exactly Len times, the visited keys are pairwise non-eq, and each
visited pair (k, v) satisfies GetOK(k) = (v, true). -/
theorem range_visits_all [Inhabited V] {eq : K → K → Bool} {hash : K → Nat} {cfg : Config}
    {m : Map K V} (hl : Lawful eq hash) (hc : cfg.Valid) (hr : Reachable eq hash cfg m)
    {σ : Type} (f : σ → K → V → Bool × σ) (hf : ∀ s k v, (f s k v).1 = true) (s : σ) :
    (((m.Range f s).1.length : Nat) : Int) = m.Len ∧
    ((m.Range f s).1.map (fun c => c.1)).Pairwise (fun a b => eq a b = false) ∧
    ∀ c ∈ (m.Range f s).1, m.GetOK c.1 = some (c.2.1, true) := by
  have _ := hc
  obtain ⟨hw, _, h1, h2, _⟩ := hr.inv
  have hlm : Lawful m.eq m.hash := by rw [h1, h2]; exact hl
  have hn := hr.nodup hl
  have hcalls : (m.Range f s).1 = m.entries.map (fun e => (e.key, e.value, true)) :=
    Map.rangeBuckets_all_true f hf s m.buckets
  rw [hcalls]
  refine ⟨?_, ?_, ?_⟩
  · rw [List.length_map]
    exact hw.size_eq.symm
  · rw [List.map_map, List.pairwise_map, ← h1]
    exact hn
  · intro c hcm
    obtain ⟨e, he, rfl⟩ := List.mem_map.1 hcm
    exact Map.GetOK_of_mem m e.key hlm hw hn e he (hlm.refl _)

/-- The map with the default configuration after the run `mixedOps`: it holds the keys
1, 21 and 11, in that order, in one chain. -/
theorem exists_mixed_map :
    ∃ m : Map Int Int, Reachable intEq intHash defaultConfig m ∧ m.Len = 3 ∧
      m.buckets.flatten.map (fun e => (e.key, e.value)) = [(1, 12), (21, 210), (11, 111)] ∧
      m.buckets[1]?.map (fun chain => chain.length) = some 3 := by
  have h : (run (NewConfig intEq intHash defaultConfig : Map Int Int) mixedOps).map
      (fun m => decide (m.Len = 3 ∧
        m.buckets.flatten.map (fun e => (e.key, e.value)) =
          [(1, 12), (21, 210), (11, 111)] ∧
        m.buckets[1]?.map (fun chain => chain.length) = some 3)) = some true := by decide!
  obtain ⟨m, hm, hp⟩ := Option.map_eq_some'.1 h
  exact ⟨m, Reachable.of_run _ Reachable.new hm, of_decide_eq_true hp⟩

/-- Instance of C14 on the map holding the keys 1, 21 and 11 in one chain, with the
visitor that counts its calls: three calls. -/
theorem range_visits_all_witness :
    Lawful intEq intHash ∧ defaultConfig.Valid ∧
      ∃ m : Map Int Int, Reachable intEq intHash defaultConfig m ∧ m.Len = 3 ∧
        (((m.Range (fun (n : Nat) _ _ => (true, n + 1)) 0).1.length : Nat) : Int) = m.Len ∧
        ((m.Range (fun (n : Nat) _ _ => (true, n + 1)) 0).1.map
          (fun c => c.1)).Pairwise (fun a b => intEq a b = false) ∧
        ∀ c ∈ (m.Range (fun (n : Nat) _ _ => (true, n + 1)) 0).1,
          m.GetOK c.1 = some (c.2.1, true) := by
  obtain ⟨m, hr, hlen, _⟩ := exists_mixed_map
  exact ⟨Lawful.intEq_intHash, defaultConfig_valid, m, hr, hlen,
    range_visits_all Lawful.intEq_intHash defaultConfig_valid hr
      (fun (n : Nat) _ _ => (true, n + 1)) (fun _ _ _ => rfl) 0⟩

/-- C15 (Range stops at the first false). For every map holding at least one entry,
Range with a visitor that answers false on its first call makes exactly one call; and
for every map and every visitor, no call is made after a call that answered false: a
call that answered false is the last one of the record. -/
theorem range_stops_at_false {σ : Type} (m : Map K V) (f : σ → K → V → Bool × σ) (s : σ) :
    (m.buckets.flatten ≠ [] → (∀ k v, (f s k v).1 = false) → (m.Range f s).1.length = 1) ∧
    (∀ (before after : List (K × V × Bool)) (c : K × V × Bool),
      (m.Range f s).1 = before ++ c :: after → c.2.2 = false → after = []) := by
  refine ⟨fun hne hf => Map.rangeBuckets_first_false f s hf m.buckets hne, ?_⟩
  intro before after c hsplit hc
  have hc_mem : c ∈ (m.Range f s).1 := by rw [hsplit]; simp
  rcases Map.rangeBuckets_calls f s m.buckets with hall | ⟨init, last, h1, h2, h3⟩
  · have := hall c hc_mem
    rw [hc] at this
    exact Bool.noConfusion this
  · have heq : before ++ c :: after = init ++ [last] := by
      rw [← hsplit]
      exact h1
    cases after with
    | nil => rfl
    | cons a rest =>
      exfalso
      -- `c` is not the last call, so it lies in `init`, whose calls all answered true
      have hlen := congrArg List.length heq
      simp only [List.length_append, List.length_cons, List.length_nil] at hlen
      have hlt : before.length < init.length := by omega
      have hget := congrArg (fun l => l[before.length]?) heq
      simp only [List.getElem?_append_right (le_refl _), Nat.sub_self,
        List.getElem?_cons_zero, List.getElem?_append_left hlt] at hget
      have hmem : c ∈ init := List.mem_iff_getElem?.2 ⟨_, hget.symm⟩
      have := h2 c hmem
      rw [hc] at this
      exact Bool.noConfusion this

/-- Instance of C15 on the map of TestCapacity holding the keys 1..29: the visitor that
always answers false is called once. -/
theorem range_stops_at_false_witness :
    ∃ m : Map Int Int, run (NewConfig intEq intHash testCfg) insOps = some m ∧
      m.Len = 29 ∧ m.buckets.flatten ≠ [] ∧
      (m.Range (fun (n : Nat) _ _ => (false, n + 1)) 0).1.length = 1 := by
  obtain ⟨m, hm, _, h1, _, _, _, _, hne⟩ := exists_big_map
  exact ⟨m, hm, h1, hne,
    (range_stops_at_false m (fun (n : Nat) _ _ => (false, n + 1)) 0).1 hne (fun _ _ => rfl)⟩

/-- C16 (Config defaulting). For every Config, setDefaults returns a Config in which
each field that was zero holds its default (8, 0.8, 0.25, 2.0) and each non-zero field
holds its input value; the all-zero Config resolves to {8, 0.8, 0.25, 2.0} and the
Config {1, 0.1, 0.2, 0.3} is returned unchanged. -/
theorem setDefaults_fields (cfg : Config) :
    cfg.setDefaults.InitialCap = (if cfg.InitialCap = 0 then 8 else cfg.InitialCap) ∧
    cfg.setDefaults.GrowLoadLimit =
      (if cfg.GrowLoadLimit = 0 then f64 (8 / 10) else cfg.GrowLoadLimit) ∧
    cfg.setDefaults.ShrinkLoadLimit =
      (if cfg.ShrinkLoadLimit = 0 then f64 (25 / 100) else cfg.ShrinkLoadLimit) ∧
    cfg.setDefaults.ChangeFactor = (if cfg.ChangeFactor = 0 then 2 else cfg.ChangeFactor) ∧
    Config.setDefaults ⟨0, 0, 0, 0⟩ = ⟨8, f64 (8 / 10), f64 (25 / 100), 2⟩ ∧
    Config.setDefaults ⟨1, f64 (1 / 10), f64 (2 / 10), f64 (3 / 10)⟩ =
      ⟨1, f64 (1 / 10), f64 (2 / 10), f64 (3 / 10)⟩ := by
  refine ⟨?_, ?_, ?_, ?_, by decide!, by decide!⟩
  all_goals
    unfold Config.setDefaults DefaultInitialCap DefaultGrowLoadLimit DefaultShrinkLoadLimit
      DefaultChangeFactor
    by_cases h1 : cfg.InitialCap = 0 <;> by_cases h2 : cfg.GrowLoadLimit = 0 <;>
      by_cases h3 : cfg.ShrinkLoadLimit = 0 <;> by_cases h4 : cfg.ChangeFactor = 0 <;>
      simp [h1, h2, h3, h4]

/-- C17 (no duplicate keys). For every map reachable by Set, Delete, SetCap and Clone
(valid configuration, lawful eq and hash), no two distinct stored entries have eq-equal
keys, and for every key at most one entry across all bucket chains has a key eq-equal
to it. -/
theorem no_duplicate_keys {eq : K → K → Bool} {hash : K → Nat} {cfg : Config}
    {m : Map K V} (hl : Lawful eq hash) (hc : cfg.Valid) (hr : Reachable eq hash cfg m) :
    m.buckets.flatten.Pairwise (fun a b => eq a.key b.key = false) ∧
    ∀ key : K, (m.buckets.flatten.filter (fun e => eq key e.key)).length ≤ 1 := by
  have _ := hc
  obtain ⟨_, _, h1, _, _⟩ := hr.inv
  have hn : m.buckets.flatten.Pairwise (fun a b => eq a.key b.key = false) := by
    have := hr.nodup hl
    unfold Map.NoDup Map.entries at this
    rw [h1] at this
    exact this
  refine ⟨hn, fun key => ?_⟩
  apply filter_length_le_one (fun a b => eq a.key b.key = false) _ _ hn
  intro a b ha hb hab
  rw [hl.trans _ _ _ (hl.symm _ _ ha) hb] at hab
  exact Bool.noConfusion hab

/-- Instance of C17 on the map reached by Set(1, 10), Set(11, 110), Set(1, 12),
Set(21, 210), Delete(11), Set(11, 111) with the default configuration: the keys 1, 11
and 21 share bucket 1 of the 10 buckets, key 1 was set twice and key 11 was set, deleted
and set again; the chain of bucket 1 holds exactly the three entries (1, 12), (21, 210),
(11, 111), and no key is stored twice. -/
theorem no_duplicate_keys_witness :
    Lawful intEq intHash ∧ defaultConfig.Valid ∧
      ∃ m : Map Int Int, Reachable intEq intHash defaultConfig m ∧ m.Len = 3 ∧
        m.buckets.flatten.map (fun e => (e.key, e.value)) =
          [(1, 12), (21, 210), (11, 111)] ∧
        m.buckets[1]?.map (fun chain => chain.length) = some 3 ∧
        m.buckets.flatten.Pairwise (fun a b => intEq a.key b.key = false) ∧
        ∀ key : Int, (m.buckets.flatten.filter (fun e => intEq key e.key)).length ≤ 1 := by
  obtain ⟨m, hr, hlen, hkeys, hchain⟩ := exists_mixed_map
  exact ⟨Lawful.intEq_intHash, defaultConfig_valid, m, hr, hlen, hkeys, hchain,
    no_duplicate_keys Lawful.intEq_intHash defaultConfig_valid hr⟩

theorem unitCfg_valid : unitCfg.Valid := by
  have h : unitCfg = ⟨1, 1, 1 / 4, 2⟩ := by decide!
  rw [h]
  constructor <;> norm_num

/-- Bucket indices on reachable maps, for any configuration: a map that holds an entry
has at least one bucket and a bucket count whose conversion to uint32 is not 0; the
index GetOK, Set and Delete compute on such a map exists and is below len(buckets); and
GetOK returns on every reachable map. -/
theorem Reachable.index_in_range [Inhabited V] {eq : K → K → Bool} {hash : K → Nat}
    {cfg : Config} {m : Map K V} (hr : Reachable eq hash cfg m) :
    (0 < m.Len → 1 ≤ m.buckets.length ∧ m.buckets.length % 4294967296 ≠ 0) ∧
    (∀ key : K, m.Len ≠ 0 →
      ∃ idx, m.hashToBucketIdx (m.hash key) = some idx ∧ idx < m.buckets.length) ∧
    (∀ key : K, ∃ r, m.GetOK key = some r) := by
  obtain ⟨hw, _⟩ := hr.inv
  have hne : m.size ≠ 0 → m.buckets.length % 4294967296 ≠ 0 := fun hz =>
    hw.shape.length_ne (hw.entries_ne hz)
  refine ⟨?_, ?_, ?_⟩
  · intro hpos
    have hpos1 : 0 < m.size := hpos
    have := hne (by omega)
    exact ⟨by omega, this⟩
  · intro key hz
    exact ⟨_, Map.hashToBucketIdx_of_ne _ (hne hz), mod_mod_lt _ _ (hne hz)⟩
  · intro key
    by_cases hz : m.size = 0
    · exact ⟨(default, false), by simp [Map.GetOK, hz]⟩
    · obtain ⟨chain, hidx, hchain⟩ := Map.bucket_of_ne m (m.hash key) (hne hz)
      exact ⟨Map.getLoop m.eq key (m.hash key) chain, by simp [Map.GetOK, hz, hidx, hchain]⟩

/-- The placement of the entries of a reachable map: the cached hash is the hash of the
key, and the bucket is the one `hashToBucketIdx` selects, which is the cached hash
modulo the bucket count when that count is below 2^32. -/
theorem Reachable.placed {eq : K → K → Bool} {hash : K → Nat} {cfg : Config} {m : Map K V}
    (hr : Reachable eq hash cfg m) (i : Nat) (chain : List (entry K V))
    (hi : m.buckets[i]? = some chain) (e : entry K V) (he : e ∈ chain) :
    e.hash = hash e.key ∧ m.hashToBucketIdx e.hash = some i ∧
      (m.buckets.length < 4294967296 → e.hash % m.buckets.length = i) := by
  obtain ⟨hw, _, _, h2, _⟩ := hr.inv
  obtain ⟨hne, hidx⟩ := hw.shape.placed i chain hi e he
  refine ⟨?_, by rw [Map.hashToBucketIdx_of_ne _ hne, hidx], fun hlt => ?_⟩
  · rw [← h2]
    exact hw.shape.cached e (mem_flatten_of_getElem? _ i chain hi e he)
  · rw [Nat.mod_eq_of_lt hlt] at hidx
    exact hidx

/-- C18, evaluated on the code. The configuration {1, 1.0, 0.25, 2} is valid. After
Set(5, 5) on a new map and SetCap(4294967297), the bucket slice has 2^32 + 1 buckets;
the bucket count converted to uint32 is 1, so the rehash puts the entry of key 5, whose
cached hash is 5 = hash(5), into bucket 5 % 1 = 0, while 5 mod len(buckets) is 5. What
holds in every reachable map: each entry stored in bucket i has
entry.hash = hash(entry.key) and i is the index `hashToBucketIdx` computes from the
cached hash, hash % uint32(len(buckets)); this is entry.hash mod len(buckets) when the
bucket count is below 2^32. -/
theorem entries_in_their_bucket :
    (unitCfg.Valid ∧
      ∃ m : Map Int Int, Reachable intEq intHash unitCfg m ∧ m.Len = 1 ∧
        m.buckets.length = 4294967297 ∧
        ∃ (chain : List (entry Int Int)) (e : entry Int Int), m.buckets[0]? = some chain ∧
          e ∈ chain ∧ e.key = 5 ∧ e.hash = intHash e.key ∧ e.hash = 5 ∧
          e.hash % m.buckets.length = 5) ∧
    (∀ (K V : Type) (eq : K → K → Bool) (hash : K → Nat) (cfg : Config) (m : Map K V),
      Reachable eq hash cfg m →
      ∀ (i : Nat) (chain : List (entry K V)), m.buckets[i]? = some chain →
        ∀ e ∈ chain, e.hash = hash e.key ∧ m.hashToBucketIdx e.hash = some i ∧
          (m.buckets.length < 4294967296 → e.hash % m.buckets.length = i)) := by
  refine ⟨⟨unitCfg_valid, ?_⟩,
    fun _ _ eq hash cfg m hr i chain hi e he => hr.placed i chain hi e he⟩
  have h : ((NewConfig intEq intHash unitCfg : Map Int Int).Set 5 5).map
      (fun m => decide (m.size = 1 ∧ m.maxSize = 1 ∧ m.cfg = unitCfg ∧
        m.buckets.flatten.map (fun e => (e.key, e.hash)) = [(5, 5)])) = some true := by
    decide!
  obtain ⟨m, hm, hp⟩ := Option.map_eq_some'.1 h
  obtain ⟨h1, h2, h3, h4⟩ := of_decide_eq_true hp
  have hr : Reachable intEq intHash unitCfg m := Reachable.set 5 5 Reachable.new hm
  obtain ⟨hw, _⟩ := hr.inv
  have hmax : max (4294967297 : Int) m.size = 4294967297 := by rw [h1]; rfl
  have hdiv : ceilDiv (max (4294967297 : Int) m.size) m.cfg.GrowLoadLimit
      = some 4294967297 := by
    rw [hmax, h3]
    decide!
  obtain ⟨m1, hm1⟩ := Map.SetCap_returns m 4294967297
    (Or.inr ⟨4294967297, 1073741825, hdiv, by rw [h3]; decide!, by decide, by decide,
      fun _ => by decide⟩)
  have hr1 : Reachable intEq intHash unitCfg m1 := Reachable.setCap _ hr hm1
  obtain ⟨hw1, hf, hsize, _, hperm, _⟩ := Map.SetCap_spec hm1 hw.shape hw.size_eq
  have hlen : ((m1.buckets.length : Nat) : Int) = 4294967297 :=
    Map.SetCap_length hm1 (by rw [hmax, h2]; decide) hdiv
  have hlen1 : m1.buckets.length = 4294967297 := by exact_mod_cast hlen
  -- the entry of key 5
  have hmem : ((5 : Int), (5 : Nat)) ∈ m.buckets.flatten.map (fun e => (e.key, e.hash)) := by
    rw [h4]
    simp
  obtain ⟨e, he, hkh⟩ := List.mem_map.1 hmem
  have hkey : e.key = 5 := congrArg Prod.fst hkh
  have hhash : e.hash = 5 := congrArg Prod.snd hkh
  have he1 : e ∈ m1.entries := hperm.mem_iff.2 he
  obtain ⟨i, chain, hi, hec⟩ := exists_getElem?_of_mem_flatten _ e he1
  obtain ⟨hcached, _, _⟩ := hr1.placed i chain hi e hec
  have hidx := (hw1.shape.placed i chain hi e hec).2
  rw [hlen1, hhash] at hidx
  have hi0 : i = 0 := by
    rw [← hidx]
  subst hi0
  refine ⟨m1, hr1, ?_, hlen1, chain, e, hi, hec, hkey, hcached, hhash, ?_⟩
  · show m1.size = 1
    rw [hsize, h1]
  · rw [hlen1, hhash]

/-- C19, evaluated on the code. The configuration {4294967296, 1.0, 0.25, 2} has
InitialCap >= 1 and 0 < GrowLoadLimit <= 1. On the new map, the initial-capacity step
of Set (SetCap(InitialCap), taken because the size is 0) returns a map with
ceil(4294967296 / 1.0) = 2^32 buckets; the bucket count converted to uint32 is 0, so
the index computation hash % uint32(len(buckets)) that follows divides by zero, for
every hash, and Set(1, 1) does not return. (On every bucket slice of fewer than 2^32
slots the conversion is the identity and the index is hash % len(buckets), with a
division by zero only on the empty slice.) -/
theorem index_modulus_zero_at_2_32_buckets :
    (∀ (m : Map Int Int) (hash : Nat), m.buckets.length < 4294967296 →
      m.hashToBucketIdx hash =
        if m.buckets.length = 0 then none else some (hash % m.buckets.length)) ∧
    (1 ≤ wideCfg.InitialCap ∧ 0 < wideCfg.GrowLoadLimit ∧ wideCfg.GrowLoadLimit ≤ 1) ∧
    (∃ m0 : Map Int Int,
      (if (NewConfig intEq intHash wideCfg : Map Int Int).size = 0
        then (NewConfig intEq intHash wideCfg : Map Int Int).SetCap
          (NewConfig intEq intHash wideCfg : Map Int Int).cfg.InitialCap
        else some (NewConfig intEq intHash wideCfg)) = some m0 ∧
      m0.Len = 0 ∧ m0.buckets.length = 4294967296 ∧
      ∀ hash : Nat, m0.hashToBucketIdx hash = none) ∧
    (NewConfig intEq intHash wideCfg : Map Int Int).Set 1 1 = none := by
  have hcfg : (NewConfig intEq intHash wideCfg : Map Int Int).cfg = wideCfg := by
    show wideCfg.setDefaults = wideCfg
    decide!
  have hz : (NewConfig intEq intHash wideCfg : Map Int Int).size = 0 := rfl
  have hmx : (NewConfig intEq intHash wideCfg : Map Int Int).maxSize = 0 := rfl
  have hmax : max (NewConfig intEq intHash wideCfg : Map Int Int).cfg.InitialCap
      (NewConfig intEq intHash wideCfg : Map Int Int).size = 4294967296 := by
    rw [hcfg, hz]
    rfl
  have hdiv : ceilDiv (max (NewConfig intEq intHash wideCfg : Map Int Int).cfg.InitialCap
      (NewConfig intEq intHash wideCfg : Map Int Int).size)
      (NewConfig intEq intHash wideCfg : Map Int Int).cfg.GrowLoadLimit
      = some 4294967296 := by
    rw [hmax, hcfg]
    decide!
  obtain ⟨m0, h0⟩ := Map.SetCap_returns (NewConfig intEq intHash wideCfg : Map Int Int)
    (NewConfig intEq intHash wideCfg : Map Int Int).cfg.InitialCap
    (Or.inr ⟨4294967296, 1073741824, hdiv, by rw [hcfg]; decide!, by decide, by decide,
      fun hne => absurd rfl hne⟩)
  have hlen : ((m0.buckets.length : Nat) : Int) = 4294967296 :=
    Map.SetCap_length h0 (by rw [hmax, hmx]; decide) hdiv
  have hlen1 : m0.buckets.length = 4294967296 := by exact_mod_cast hlen
  have hsize : m0.size = 0 := (Map.SetCap_scalars h0).2.1
  have hidx : ∀ hash : Nat, m0.hashToBucketIdx hash = none := by
    intro hash
    simp [Map.hashToBucketIdx, hlen1]
  have hpre : (if (NewConfig intEq intHash wideCfg : Map Int Int).size = 0
      then (NewConfig intEq intHash wideCfg : Map Int Int).SetCap
        (NewConfig intEq intHash wideCfg : Map Int Int).cfg.InitialCap
      else some (NewConfig intEq intHash wideCfg)) = some m0 := by
    rw [if_pos hz]
    exact h0
  refine ⟨?_, ?_, ⟨m0, hpre, hsize, hlen1, hidx⟩, ?_⟩
  · intro m hash h
    unfold Map.hashToBucketIdx
    rw [Nat.mod_eq_of_lt h]
  · have h : wideCfg = ⟨4294967296, 1, 1 / 4, 2⟩ := by decide!
    rw [h]
    norm_num
  · exact Map.Set_none_of_idx 1 1 hpre (hidx _)

/-- C20, as stated, fails: the configuration {1, 0.6, 0.59, 2} satisfies the spec's
constraints, and after the first Set on a new map the capacity is 1, the bucket count
ceil(1 / 0.6) = 2 and the shrink floor ceil(2 * 0.59) = 2, which exceeds the capacity. -/
theorem minSize_exceeds_maxSize :
    (1 ≤ tightCfg.InitialCap ∧ 0 < tightCfg.GrowLoadLimit ∧ tightCfg.GrowLoadLimit ≤ 1 ∧
      0 < tightCfg.ShrinkLoadLimit ∧ tightCfg.ShrinkLoadLimit < tightCfg.GrowLoadLimit ∧
      1 < tightCfg.ChangeFactor) ∧
    ∃ m : Map Int Int, Reachable intEq intHash tightCfg m ∧ m.maxSize = 1 ∧ m.minSize = 2 ∧
      ¬ (m.minSize ≤ m.maxSize) := by
  constructor
  · have h : tightCfg = ⟨1, 5404319552844595 / 9007199254740992,
        5314247560297185 / 9007199254740992, 2⟩ := by decide!
    rw [h]
    norm_num
  have h : ((NewConfig intEq intHash tightCfg : Map Int Int).Set 1 1).map
      (fun m => (m.maxSize, m.minSize)) = some (1, 2) := by decide!
  obtain ⟨m, hm, h2⟩ := Option.map_eq_some'.1 h
  have hmax : m.maxSize = 1 := congrArg Prod.fst h2
  have hmin : m.minSize = 2 := congrArg Prod.snd h2
  refine ⟨m, Reachable.set 1 1 Reachable.new hm, hmax, hmin, ?_⟩
  rw [hmax, hmin]
  decide

/-- C20, amended. For every configuration satisfying the spec's constraints
(InitialCap >= 1, 0 < GrowLoadLimit <= 1, 0 < ShrinkLoadLimit < GrowLoadLimit,
ChangeFactor > 1) and every reachable map: the bucket count and the shrink floor are the
ones SetCap derives, len(buckets) = int(math.Ceil(float64(maxSize) / GrowLoadLimit)) and
minSize = int(math.Ceil(float64(len(buckets)) * ShrinkLoadLimit)), and
minSize <= len(buckets). -/
theorem minSize_bound {eq : K → K → Bool} {hash : K → Nat} {cfg : Config} {m : Map K V}
    (hc : cfg.Valid) (hs0 : 0 < cfg.ShrinkLoadLimit)
    (hsg : cfg.ShrinkLoadLimit < cfg.GrowLoadLimit) (hr : Reachable eq hash cfg m) :
    ceilDiv m.maxSize cfg.GrowLoadLimit = some (m.buckets.length : Int) ∧
    ceilMul (m.buckets.length : Int) cfg.ShrinkLoadLimit = some m.minSize ∧
    m.minSize ≤ (m.buckets.length : Int) := by
  obtain ⟨hw, hsd, _, _, hcfg⟩ := hr.inv
  have hcfg1 : m.cfg = cfg := by
    rw [hcfg, hc.setDefaults, if_neg (ne_of_gt hs0)]
  unfold Map.Sized at hsd
  rw [hcfg1] at hsd
  refine ⟨hsd.1, hsd.2, ?_⟩
  exact ceilMul_le _ _ _ (by exact_mod_cast Nat.zero_le _) hw.shape.alloc
    (le_trans (le_of_lt hsg) hc.grow_le_one) hsd.2

/-- Instance of the amended C20 for the configuration {1, 0.6, 0.59, 2} on the map
holding one entry: Cap 1, 2 buckets and shrink floor 2, so minSize <= len(buckets)
holds where minSize <= maxSize fails. -/
theorem minSize_bound_witness :
    tightCfg.Valid ∧ 0 < tightCfg.ShrinkLoadLimit ∧
      tightCfg.ShrinkLoadLimit < tightCfg.GrowLoadLimit ∧
      ∃ m : Map Int Int, Reachable intEq intHash tightCfg m ∧ m.Len = 1 ∧ m.maxSize = 1 ∧
        m.minSize = 2 ∧ m.buckets.length = 2 ∧
        ceilDiv m.maxSize tightCfg.GrowLoadLimit = some (m.buckets.length : Int) ∧
        ceilMul (m.buckets.length : Int) tightCfg.ShrinkLoadLimit = some m.minSize ∧
        m.minSize ≤ (m.buckets.length : Int) := by
  have he : tightCfg = ⟨1, 5404319552844595 / 9007199254740992,
      5314247560297185 / 9007199254740992, 2⟩ := by decide!
  have hv : tightCfg.Valid := by
    rw [he]
    constructor <;> norm_num
  have h0 : 0 < tightCfg.ShrinkLoadLimit := by
    rw [he]
    norm_num
  have h1 : tightCfg.ShrinkLoadLimit < tightCfg.GrowLoadLimit := by
    rw [he]
    norm_num
  have h : ((NewConfig intEq intHash tightCfg : Map Int Int).Set 1 1).map
      (fun m => decide (m.Len = 1 ∧ m.maxSize = 1 ∧ m.minSize = 2 ∧ m.buckets.length = 2))
      = some true := by decide!
  obtain ⟨m, hm, hp⟩ := Option.map_eq_some'.1 h
  obtain ⟨a1, a2, a3, a4⟩ := of_decide_eq_true hp
  have hr : Reachable intEq intHash tightCfg m := Reachable.set 1 1 Reachable.new hm
  exact ⟨hv, h0, h1, m, hr, a1, a2, a3, a4, minSize_bound hv h0 h1 hr⟩

end Xmap
